import Mathlib

/-!
The type-erased vector of `vector.h`

A shallow embedding of the C container: the record `_vector`, the functions
that work on it, and the properties its description states.

Conventions of the embedding.

* C `int` is `Int`.  Signed overflow is undefined in C and is not followed:
  every statement below is about the arithmetic the source writes, on numbers
  that fit.  `/` of the source is truncating division, `Int.tdiv`.
* A call that ends in `VECTOR_PANIC` or `abort()` returns `none`.
* `byte* _data` is a `byte_ptr`: whether it is `NULL`, how many bytes the
  allocation it points to has, and the bytes found at each signed offset from
  the pointer.  A store is followed through the pointer arithmetic of the
  source whether or not it lands inside the allocation; `alloc` tells where the
  allocation ends.
* `malloc` and `realloc` answer through an `Allocation`: whether the request is
  granted and what the bytes nobody wrote yet happen to hold.
* `VECTOR_MAX_SIZE` is a global of the source.  Its value comes from a
  floating-point computation whose conversion to `int` is out of range, so it is
  a parameter of every function that reads it.
* `void* value` is a `Nat`: the little-endian number held by the bytes that
  start at the parameter `value` (the machine is little-endian, as
  `example.c` needs).  Its low eight bytes are the pointer itself; for an
  element wider than a pointer `memcpy` reads on past it, and those bytes are
  the higher bytes of the same number.
* The element read back by `VECTOR_GET` is the list of the slot's bytes;
  `le_value` is the number they stand for.
-/

/-- The target of a `byte*`.  `null` says the pointer is `NULL`, `alloc` is the
byte length of the allocation behind it, `mem o` the byte at offset `o`. -/
structure byte_ptr where
  null : Bool
  alloc : Int
  mem : Int → Nat

/-- The null pointer. -/
def NULL : byte_ptr := ⟨true, 0, fun _ => 0⟩

/-- One answer of the allocator: `granted` is false when it returns `NULL`;
`fresh o` is what an unwritten byte at offset `o` of the block holds. -/
structure Allocation where
  granted : Bool
  fresh : Int → Nat

/-- The request for `bytes` bytes succeeds.  The byte count is computed in
`int` and converted to `size_t`: a negative count becomes a size no allocator
can serve. -/
def Allocation.grants (heap : Allocation) (bytes : Int) : Bool :=
  heap.granted && decide (0 ≤ bytes)

/-- `malloc(bytes)`: a block whose content is indeterminate, or `NULL`. -/
def malloc (heap : Allocation) (bytes : Int) : byte_ptr :=
  if heap.grants bytes then ⟨false, bytes, fun o => heap.fresh o % 256⟩ else NULL

/-- `realloc(ptr, bytes)`: the content is kept up to the smaller of the old and
the new length, the rest is indeterminate; `NULL` on failure. -/
def realloc (heap : Allocation) (ptr : byte_ptr) (bytes : Int) : byte_ptr :=
  if heap.grants bytes then
    ⟨false, bytes, fun o => if 0 ≤ o ∧ o < min ptr.alloc bytes then ptr.mem o else heap.fresh o % 256⟩
  else NULL

/-- Byte `j` of the memory that starts at the parameter `value`. -/
def value_byte (value : Nat) (j : Nat) : Nat := value / 256 ^ j % 256

/-- `memcpy(dst + off, &value, n)`.  A negative `n`, which the C call would turn
into a huge count, copies nothing. -/
def memcpy (dst : byte_ptr) (off : Int) (value : Nat) (n : Int) : byte_ptr :=
  { dst with mem := fun o => if off ≤ o ∧ o < off + n then value_byte value (o - off).toNat else dst.mem o }

/-- `*(dst + off) = b`: a store of one byte. -/
def store_byte (dst : byte_ptr) (off : Int) (b : Nat) : byte_ptr :=
  { dst with mem := fun o => if o = off then b else dst.mem o }

/-- The `n` bytes found at `ptr + off`. -/
def load (ptr : byte_ptr) (off : Int) (n : Int) : List Nat :=
  (List.range n.toNat).map fun (j : Nat) => ptr.mem (off + (j : Int))

/-- The `n` bytes that `memcpy` takes from the parameter `value`. -/
def value_bytes (value : Nat) (n : Int) : List Nat :=
  (List.range n.toNat).map (value_byte value)

/-- The number a little-endian byte sequence stands for. -/
def le_value : List Nat → Nat
  | [] => 0
  | b :: bs => b + 256 * le_value bs

/-- The record `struct __vector`. -/
structure _vector where
  _size : Int
  _capacity : Int
  _element_size : Int
  _last_index : Int
  _data : byte_ptr

/-- `vector_set`: bounds check, then the last index moves up to `index`, then
`_element_size` bytes are copied from the parameter `value` into the slot. -/
def vector_set (vec : _vector) (index : Int) (value : Nat) : Option _vector :=
  if index < 0 ∨ index ≥ vec._size then none
  else
    let vec1 := if vec._last_index < index then { vec with _last_index := index } else vec
    some { vec1 with _data := memcpy vec1._data (index * vec1._element_size) value vec1._element_size }

/-- `vector_get`: the slot's address, as an offset from `_data`. -/
def vector_get (vec : _vector) (index : Int) : Option Int :=
  if index < 0 ∨ index ≥ vec._size then none
  else some (index * vec._element_size)

/-- `VECTOR_GET(vec, index, type)` for a `type` of `_element_size` bytes: the
bytes read through the pointer `vector_get` returns. -/
def VECTOR_GET (vec : _vector) (index : Int) : Option (List Nat) :=
  (vector_get vec index).map fun off => load vec._data off vec._element_size

/-- `vector_reserve`. -/
def vector_reserve (heap : Allocation) (vec : _vector) (new_capacity : Int) : Option _vector :=
  let data :=
    if vec._data.null then malloc heap (new_capacity * vec._element_size)
    else realloc heap vec._data (new_capacity * vec._element_size)
  if data.null then none
  else some { vec with _data := data, _capacity := new_capacity }

/-- `vector_resize`. -/
def vector_resize (heap : Allocation) (vec : _vector) (new_size : Int) : Option _vector :=
  let vec1 := { vec with _size := new_size }
  let vec2 := if new_size > vec1._capacity then { vec1 with _capacity := new_size } else vec1
  vector_reserve heap vec2 vec2._capacity

/-- `vector_new`, the record allocation taken to succeed (the source does not
test it).  In the source it also gives the global `VECTOR_MAX_SIZE` its value
when that is still zero; here the global is a parameter. -/
def vector_new (element_size : Int) : _vector :=
  { _element_size := element_size, _size := 0, _capacity := 0, _last_index := -1, _data := NULL }

/-- The loop of `vector_clear`, for at most `fuel` turns: while `_size > 0`,
`vector_set(vec, _size - 1, NULL)` and `_size--`.  The `NULL` it stores is the
number 0. -/
def vector_clear_loop : Nat → _vector → Option _vector
  | 0, vec => some vec
  | fuel + 1, vec =>
    if vec._size > 0 then
      match vector_set vec (vec._size - 1) 0 with
      | none => none
      | some vec1 => vector_clear_loop fuel { vec1 with _size := vec1._size - 1 }
    else some vec

/-- `vector_clear`.  The loop takes one element off per turn, so `_size` turns
are all it can make (`vector_clear_loop_fuel`: more turns change nothing). -/
def vector_clear (vec : _vector) : Option _vector :=
  match vector_clear_loop vec._size.toNat vec with
  | none => none
  | some vec1 => some { vec1 with _last_index := -1 }

/-- `vector_calculate_growth`. -/
def vector_calculate_growth (VECTOR_MAX_SIZE : Int) (vec : _vector) (new_size : Int) : Int :=
  let old_capacity := vec._capacity
  if old_capacity > VECTOR_MAX_SIZE - old_capacity.tdiv 2 then VECTOR_MAX_SIZE
  else
    let geometric := old_capacity + old_capacity.tdiv 2
    if geometric < new_size then new_size else geometric

/-- `vector_size`. -/
def vector_size (vec : _vector) : Int := vec._size

/-- `vector_capacity`. -/
def vector_capacity (vec : _vector) : Int := vec._capacity

/-- `vector_push_back`. -/
def vector_push_back (VECTOR_MAX_SIZE : Int) (heap : Allocation) (vec : _vector) (value : Nat) :
    Option _vector :=
  if vec._last_index = vec._size - 1 then
    let grown :=
      if vec._size = vec._capacity then
        vector_reserve heap vec (vector_calculate_growth VECTOR_MAX_SIZE vec (vec._size + 1))
      else some vec
    match grown with
    | none => none
    | some vec1 =>
      let vec2 := { vec1 with _size := vec1._size + 1 }
      let vec3 := { vec2 with _last_index := vec2._last_index + 1 }
      vector_set vec3 vec3._last_index value
  else
    let vec1 := { vec with _size := vec._last_index + 2 }
    let vec2 := { vec1 with _last_index := vec1._last_index + 1 }
    vector_set vec2 vec2._last_index value

/-- `vector_pop_back`. -/
def vector_pop_back (vec : _vector) : Option _vector :=
  if vec._size = 0 then none
  else
    let vec1 :=
      { vec with
        _data := store_byte vec._data (vec._last_index * vec._element_size) 0,
        _last_index := vec._last_index - 1 }
    some { vec1 with _size := vec1._size - 1 }

/-- One call of a public operation that changes the vector, with the
allocator's answer where the operation may allocate. -/
inductive Op where
  | set (index : Int) (value : Nat)
  | reserve (heap : Allocation) (new_capacity : Int)
  | resize (heap : Allocation) (new_size : Int)
  | push_back (heap : Allocation) (value : Nat)
  | pop_back
  | clear

/-- The effect of one call. -/
def Op.apply (VECTOR_MAX_SIZE : Int) (vec : _vector) : Op → Option _vector
  | .set index value => vector_set vec index value
  | .reserve heap new_capacity => vector_reserve heap vec new_capacity
  | .resize heap new_size => vector_resize heap vec new_size
  | .push_back heap value => vector_push_back VECTOR_MAX_SIZE heap vec value
  | .pop_back => vector_pop_back vec
  | .clear => vector_clear vec

/-- A sequence of calls, stopped by the first one that aborts. -/
def run (VECTOR_MAX_SIZE : Int) (vec : _vector) : List Op → Option _vector
  | [] => some vec
  | op :: ops =>
    match op.apply VECTOR_MAX_SIZE vec with
    | none => none
    | some vec1 => run VECTOR_MAX_SIZE vec1 ops


/-- The growth policy as the description words it: the maximum `M` when the
capacity `c` is above `M - c/2`, and otherwise the larger of `c + c/2` and the
requested size `r`, the division being that of C integers. -/
def growth_policy (M c r : Int) : Int :=
  if c > M - c.tdiv 2 then M else max (c + c.tdiv 2) r

/-- An allocator answer that grants the request and hands out bytes `0xAA`. -/
def sure : Allocation := ⟨true, fun _ => 170⟩

/-- The calls that keep `0 <= _size <= _capacity`: a `vector_reserve` not
below the size, a `vector_resize` to a size that is not negative, and a
`vector_push_back` on a vector whose last index is inside the size and which,
when it is full, is still below `VECTOR_MAX_SIZE`. -/
def Op.within_capacity (VECTOR_MAX_SIZE : Int) (vec : _vector) : Op → Prop
  | .reserve _ new_capacity => vec._size ≤ new_capacity
  | .resize _ new_size => 0 ≤ new_size
  | .push_back _ _ =>
    vec._last_index ≤ vec._size - 1 ∧ (vec._size = vec._capacity → vec._size < VECTOR_MAX_SIZE)
  | _ => True

instance (VECTOR_MAX_SIZE : Int) (vec : _vector) (op : Op) :
    Decidable (Op.within_capacity VECTOR_MAX_SIZE vec op) := by
  cases op <;> unfold Op.within_capacity <;> infer_instance

/-- The calls that keep `-1 <= _last_index <= _size - 1`: a `vector_resize`
to a size above the last index and a `vector_pop_back` on a vector whose last
index is not negative; every other call does. -/
def Op.within_size (vec : _vector) : Op → Prop
  | .resize _ new_size => vec._last_index < new_size
  | .pop_back => 0 ≤ vec._last_index
  | _ => True

instance (vec : _vector) (op : Op) : Decidable (Op.within_size vec op) := by
  cases op <;> unfold Op.within_size <;> infer_instance

/-- Every call of the sequence meets `guard` in the state it is made in. -/
def guarded (guard : _vector → Op → Prop) (VECTOR_MAX_SIZE : Int) : _vector → List Op → Prop
  | _, [] => True
  | vec, op :: ops =>
    guard vec op ∧
      match op.apply VECTOR_MAX_SIZE vec with
      | none => True
      | some vec1 => guarded guard VECTOR_MAX_SIZE vec1 ops

/-- Whether every call of the sequence meets a decidable `guard`. -/
def guarded_dec (guard : _vector → Op → Prop) [∀ vec op, Decidable (guard vec op)]
    (VECTOR_MAX_SIZE : Int) : (vec : _vector) → (ops : List Op) →
    Decidable (guarded guard VECTOR_MAX_SIZE vec ops)
  | _, [] => isTrue trivial
  | vec, op :: ops =>
    match hg : decide (guard vec op), h : op.apply VECTOR_MAX_SIZE vec with
    | false, _ => isFalse (fun hx => by
        have := hx.1
        simp_all)
    | true, none => isTrue (by
        unfold guarded
        rw [h]
        exact ⟨of_decide_eq_true hg, trivial⟩)
    | true, some vec1 =>
      match guarded_dec guard VECTOR_MAX_SIZE vec1 ops with
      | isTrue ht => isTrue (by
          unfold guarded
          rw [h]
          exact ⟨of_decide_eq_true hg, ht⟩)
      | isFalse hf => isFalse (fun hx => by
          unfold guarded at hx
          rw [h] at hx
          exact hf hx.2)

instance (guard : _vector → Op → Prop) [∀ vec op, Decidable (guard vec op)]
    (VECTOR_MAX_SIZE : Int) (vec : _vector) (ops : List Op) :
    Decidable (guarded guard VECTOR_MAX_SIZE vec ops) :=
  guarded_dec guard VECTOR_MAX_SIZE vec ops

/-- A dense vector in good order: the element size is not negative, the last
index is the last slot, the size is within the capacity and the capacity
within `VECTOR_MAX_SIZE`, and the buffer is an allocation of
`_capacity * _element_size` bytes, not `NULL` once the capacity is positive. -/
def packed (VECTOR_MAX_SIZE : Int) (vec : _vector) : Prop :=
  0 ≤ vec._element_size ∧ vec._last_index = vec._size - 1 ∧ 0 ≤ vec._size ∧
    vec._size ≤ vec._capacity ∧ vec._capacity ≤ VECTOR_MAX_SIZE ∧
    vec._data.alloc = vec._capacity * vec._element_size ∧
    (0 < vec._capacity → vec._data.null = false)

/-- The calls `vector_push_back(value)` of a list of values, each with the
allocator's answer for it. -/
def pushes (ps : List (Allocation × Nat)) : List Op :=
  ps.map fun p => Op.push_back p.1 p.2

/-- The sum `old_capacity + old_capacity / 2` of `vector_calculate_growth`, when
the function gets to compute it: the test before it returns first otherwise. -/
def geometric_sum (VECTOR_MAX_SIZE : Int) (vec : _vector) : Option Int :=
  let old_capacity := vec._capacity
  if old_capacity > VECTOR_MAX_SIZE - old_capacity.tdiv 2 then none
  else some (old_capacity + old_capacity.tdiv 2)

/-- The buffer is what the fields say: an allocation of
`_capacity * _element_size` bytes, `NULL` only while the capacity is zero. -/
def owns_buffer (vec : _vector) : Prop :=
  vec._data.alloc = vec._capacity * vec._element_size ∧
    (vec._data.null = true → vec._capacity = 0)

/-- The calls that do not lower the capacity: a `vector_reserve` that asks for
no less than the capacity, and a `vector_push_back` that, when it has to grow,
finds the capacity within `VECTOR_MAX_SIZE`; every other call. -/
def Op.keeps_capacity (VECTOR_MAX_SIZE : Int) (vec : _vector) : Op → Prop
  | .reserve _ new_capacity => vec._capacity ≤ new_capacity
  | .push_back _ _ =>
    vec._last_index = vec._size - 1 → vec._size = vec._capacity →
      vec._capacity ≤ VECTOR_MAX_SIZE
  | _ => True

instance (VECTOR_MAX_SIZE : Int) (vec : _vector) (op : Op) :
    Decidable (Op.keeps_capacity VECTOR_MAX_SIZE vec op) := by
  cases op <;> unfold Op.keeps_capacity <;> infer_instance

/-- Calling `vector_pop_back` until `_size == 0`, for at most `fuel` calls. -/
def pop_back_loop : Nat → _vector → Option _vector
  | 0, vec => some vec
  | fuel + 1, vec =>
    if vec._size = 0 then some vec
    else
      match vector_pop_back vec with
      | none => none
      | some vec1 => pop_back_loop fuel vec1

/-- The clearing the description words: `vector_pop_back` until `_size == 0`,
then `_last_index` set to `-1`.  Each call takes one element off, so `_size`
calls are all there can be. -/
def clear_by_popping (vec : _vector) : Option _vector :=
  match pop_back_loop vec._size.toNat vec with
  | none => none
  | some vec1 => some { vec1 with _last_index := -1 }

/-- Whether `vector_push_back` on `vec` calls `vector_reserve`: the vector is
dense and full. -/
def push_back_reserves (vec : _vector) : Bool :=
  decide (vec._last_index = vec._size - 1) && decide (vec._size = vec._capacity)

/-- The number of calls of `vector_reserve` that the calls
`vector_push_back(value)` of a list make from `vec` on, up to and with one
that aborts. -/
def reserve_calls (VECTOR_MAX_SIZE : Int) : _vector → List (Allocation × Nat) → Nat
  | _, [] => 0
  | vec, p :: ps =>
    (if push_back_reserves vec then 1 else 0) +
      match vector_push_back VECTOR_MAX_SIZE p.1 vec p.2 with
      | none => 0
      | some vec1 => reserve_calls VECTOR_MAX_SIZE vec1 ps

/-- The number of elements the reallocations of those calls carry over: at a
call of `vector_reserve` that returns, as many as the smaller of the old and
the new capacity. -/
def copied_elements (VECTOR_MAX_SIZE : Int) : _vector → List (Allocation × Nat) → Int
  | _, [] => 0
  | vec, p :: ps =>
    match vector_push_back VECTOR_MAX_SIZE p.1 vec p.2 with
    | none => 0
    | some vec1 =>
      (if push_back_reserves vec then max 0 (min vec._capacity vec1._capacity) else 0) +
        copied_elements VECTOR_MAX_SIZE vec1 ps

/-- Where a run of `vector_push_back` stands after `k` calls of
`vector_reserve` that carried `cp` elements over: still growing by the
geometric rule, or grown to `VECTOR_MAX_SIZE`, or with the size past the
capacity.  Each case bounds `2 ^ k` and `cp` by the size. -/
def growth_phase (VECTOR_MAX_SIZE : Int) (vec : _vector) (k : Nat) (cp : Int) : Prop :=
  (vec._size ≤ vec._capacity ∧ 2 * vec._capacity ≤ 3 * vec._size + 1 ∧
      (2 : Int) ^ k ≤ 2 * vec._capacity ^ 3 + 1 ∧ cp ≤ vec._size + 2 * vec._capacity) ∨
  (vec._size ≤ vec._capacity ∧ vec._capacity = VECTOR_MAX_SIZE ∧ 2 ≤ VECTOR_MAX_SIZE ∧
      (2 : Int) ^ k ≤ 4 * vec._size ^ 3 + 2 ∧ cp ≤ 4 * vec._size) ∨
  (vec._capacity < vec._size ∧ (2 : Int) ^ k ≤ 8 * vec._size ^ 3 + 4 ∧ cp ≤ 5 * vec._size)

/-! ## Single calls -/

theorem vector_set_some (vec : _vector) (index : Int) (value : Nat)
    (h0 : 0 ≤ index) (h1 : index < vec._size) :
    vector_set vec index value =
      some { _size := vec._size, _capacity := vec._capacity, _element_size := vec._element_size,
             _last_index := max vec._last_index index,
             _data := memcpy vec._data (index * vec._element_size) value vec._element_size } := by
  unfold vector_set
  have hb : ¬ (index < 0 ∨ index ≥ vec._size) := by omega
  rw [if_neg hb]
  by_cases h : vec._last_index < index
  · simp [h, max_eq_right (le_of_lt h)]
  · simp [h, max_eq_left (not_lt.mp h)]

theorem vector_set_none_iff (vec : _vector) (index : Int) (value : Nat) :
    vector_set vec index value = none ↔ (index < 0 ∨ index ≥ vec._size) := by
  unfold vector_set
  by_cases hb : index < 0 ∨ index ≥ vec._size
  · simp [hb]
  · simp [hb]

theorem vector_get_none_iff (vec : _vector) (index : Int) :
    vector_get vec index = none ↔ (index < 0 ∨ index ≥ vec._size) := by
  unfold vector_get
  by_cases hb : index < 0 ∨ index ≥ vec._size
  · simp [hb]
  · simp [hb]

theorem vector_reserve_some (heap : Allocation) (vec : _vector) (n : Int)
    (hg : heap.grants (n * vec._element_size) = true) :
    ∃ p : byte_ptr,
      vector_reserve heap vec n =
        some { _size := vec._size, _capacity := n, _element_size := vec._element_size,
               _last_index := vec._last_index, _data := p } ∧
      p.null = false ∧ p.alloc = n * vec._element_size ∧
      (vec._data.null = false → ∀ o : Int, 0 ≤ o → o < vec._data.alloc →
        o < n * vec._element_size → p.mem o = vec._data.mem o) := by
  unfold vector_reserve
  by_cases hn : vec._data.null = true
  · refine ⟨malloc heap (n * vec._element_size), ?_, ?_, ?_, ?_⟩
    · simp [hn, malloc, hg]
    · simp [malloc, hg]
    · simp [malloc, hg]
    · intro h; simp [h] at hn
  · refine ⟨realloc heap vec._data (n * vec._element_size), ?_, ?_, ?_, ?_⟩
    · simp [hn, realloc, hg]
    · simp [realloc, hg]
    · simp [realloc, hg]
    · intro _ o h0 h1 h2
      simp [realloc, hg, h0, h1, h2]

theorem vector_reserve_none (heap : Allocation) (vec : _vector) (n : Int)
    (hg : heap.grants (n * vec._element_size) = false) :
    vector_reserve heap vec n = none := by
  unfold vector_reserve
  by_cases hn : vec._data.null = true <;> simp [hn, malloc, realloc, hg, NULL]

theorem vector_resize_some (heap : Allocation) (vec : _vector) (k : Int)
    (hg : heap.grants (max k vec._capacity * vec._element_size) = true) :
    ∃ p : byte_ptr,
      vector_resize heap vec k =
        some { _size := k, _capacity := max k vec._capacity, _element_size := vec._element_size,
               _last_index := vec._last_index, _data := p } ∧
      p.null = false ∧ p.alloc = max k vec._capacity * vec._element_size := by
  unfold vector_resize
  by_cases h : k > vec._capacity
  · have hm : max k vec._capacity = k := max_eq_left (le_of_lt h)
    rw [hm] at hg ⊢
    dsimp only
    rw [if_pos h]
    obtain ⟨p, hp, hn, ha, -⟩ := vector_reserve_some heap
      { _size := k, _capacity := k, _element_size := vec._element_size,
        _last_index := vec._last_index, _data := vec._data } k hg
    exact ⟨p, hp, hn, ha⟩
  · have hm : max k vec._capacity = vec._capacity := max_eq_right (not_lt.mp h)
    rw [hm] at hg ⊢
    dsimp only
    rw [if_neg h]
    obtain ⟨p, hp, hn, ha, -⟩ := vector_reserve_some heap
      { _size := k, _capacity := vec._capacity, _element_size := vec._element_size,
        _last_index := vec._last_index, _data := vec._data } vec._capacity hg
    exact ⟨p, hp, hn, ha⟩

theorem vector_resize_none (heap : Allocation) (vec : _vector) (k : Int)
    (hg : heap.grants (max k vec._capacity * vec._element_size) = false) :
    vector_resize heap vec k = none := by
  unfold vector_resize
  dsimp only
  by_cases h : k > vec._capacity
  · rw [max_eq_left (le_of_lt h)] at hg
    rw [if_pos h]
    exact vector_reserve_none heap _ k hg
  · rw [max_eq_right (not_lt.mp h)] at hg
    rw [if_neg h]
    exact vector_reserve_none heap _ vec._capacity hg

/-! ## The loop of `vector_clear` and the loop of popping -/

theorem vector_clear_loop_spec (fuel : Nat) :
    ∀ vec : _vector, vec._size.toNat ≤ fuel →
      ∃ vec1, vector_clear_loop fuel vec = some vec1 ∧ vec1._size = min vec._size 0 ∧
        vec1._capacity = vec._capacity ∧ vec1._element_size = vec._element_size := by
  induction fuel with
  | zero =>
    intro vec h
    refine ⟨vec, rfl, ?_, rfl, rfl⟩
    have : vec._size ≤ 0 := by omega
    exact (min_eq_left this).symm
  | succ fuel ih =>
    intro vec h
    unfold vector_clear_loop
    by_cases hs : vec._size > 0
    · rw [if_pos hs, vector_set_some vec (vec._size - 1) 0 (by omega) (by omega)]
      dsimp only
      obtain ⟨vec1, h1, h2, h3, h4⟩ := ih
        { _size := vec._size - 1, _capacity := vec._capacity, _element_size := vec._element_size,
          _last_index := max vec._last_index (vec._size - 1),
          _data := memcpy vec._data ((vec._size - 1) * vec._element_size) 0 vec._element_size }
        (by dsimp only; omega)
      refine ⟨vec1, h1, ?_, h3, h4⟩
      rw [h2]
      dsimp only
      rw [min_eq_right (by omega), min_eq_right (by omega)]
    · rw [if_neg hs]
      refine ⟨vec, rfl, ?_, rfl, rfl⟩
      exact (min_eq_left (by omega)).symm

theorem vector_clear_loop_succ (fuel : Nat) :
    ∀ vec : _vector, vec._size.toNat ≤ fuel →
      vector_clear_loop (fuel + 1) vec = vector_clear_loop fuel vec := by
  induction fuel with
  | zero =>
    intro vec h
    have hs : ¬ vec._size > 0 := by omega
    simp [vector_clear_loop, hs]
  | succ fuel ih =>
    intro vec h
    rw [vector_clear_loop, vector_clear_loop]
    by_cases hs : vec._size > 0
    · rw [if_pos hs, if_pos hs, vector_set_some vec (vec._size - 1) 0 (by omega) (by omega)]
      dsimp only
      exact ih _ (by show (vec._size - 1).toNat ≤ fuel; omega)
    · rw [if_neg hs, if_neg hs]

theorem vector_clear_loop_fuel (vec : _vector) (fuel : Nat) (h : vec._size.toNat ≤ fuel) :
    vector_clear_loop fuel vec = vector_clear_loop vec._size.toNat vec := by
  induction fuel with
  | zero =>
    have : vec._size.toNat = 0 := by omega
    rw [this]
  | succ fuel ih =>
    by_cases he : vec._size.toNat = fuel + 1
    · rw [he]
    · rw [vector_clear_loop_succ fuel vec (by omega)]
      exact ih (by omega)

theorem vector_clear_loop_data (fuel : Nat) :
    ∀ vec vec1 : _vector, vector_clear_loop fuel vec = some vec1 →
      vec1._data.alloc = vec._data.alloc ∧ vec1._data.null = vec._data.null := by
  induction fuel with
  | zero =>
    intro vec vec1 h
    cases h
    exact ⟨rfl, rfl⟩
  | succ fuel ih =>
    intro vec vec1 h
    rw [vector_clear_loop] at h
    by_cases hs : vec._size > 0
    · rw [if_pos hs, vector_set_some vec (vec._size - 1) 0 (by omega) (by omega)] at h
      dsimp only at h
      exact ih
        { _size := vec._size - 1, _capacity := vec._capacity,
          _element_size := vec._element_size,
          _last_index := max vec._last_index (vec._size - 1),
          _data := memcpy vec._data ((vec._size - 1) * vec._element_size) 0
            vec._element_size } vec1 h
    · rw [if_neg hs] at h
      cases h
      exact ⟨rfl, rfl⟩

theorem pop_back_loop_spec (fuel : Nat) :
    ∀ vec : _vector, 0 ≤ vec._size → vec._size.toNat ≤ fuel →
      ∃ vec1, pop_back_loop fuel vec = some vec1 ∧ vec1._size = 0 ∧
        vec1._capacity = vec._capacity ∧ vec1._element_size = vec._element_size := by
  induction fuel with
  | zero =>
    intro vec h0 h
    exact ⟨vec, rfl, by omega, rfl, rfl⟩
  | succ fuel ih =>
    intro vec h0 h
    rw [pop_back_loop]
    by_cases hs : vec._size = 0
    · rw [if_pos hs]
      exact ⟨vec, rfl, hs, rfl, rfl⟩
    · rw [if_neg hs]
      have hp : vector_pop_back vec =
          some { _size := vec._size - 1, _capacity := vec._capacity,
                 _element_size := vec._element_size, _last_index := vec._last_index - 1,
                 _data := store_byte vec._data (vec._last_index * vec._element_size) 0 } := by
        unfold vector_pop_back
        rw [if_neg hs]
      rw [hp]
      dsimp only
      exact ih _ (by show 0 ≤ vec._size - 1; omega) (by show (vec._size - 1).toNat ≤ fuel; omega)

/-! ## Bytes -/

theorem load_memcpy_same (p : byte_ptr) (off : Int) (value : Nat) (n : Int) :
    load (memcpy p off value n) off n = value_bytes value n := by
  unfold load value_bytes memcpy
  apply List.map_congr_left
  intro j hj
  have hj2 : j < n.toNat := List.mem_range.mp hj
  have h1 : off ≤ off + (j : Int) ∧ off + (j : Int) < off + n := by omega
  dsimp only
  rw [if_pos h1]
  congr 1
  omega

theorem load_memcpy_other (p : byte_ptr) (off : Int) (value : Nat) (n : Int) (off2 m : Int)
    (h : off2 + m ≤ off ∨ off + n ≤ off2) :
    load (memcpy p off value n) off2 m = load p off2 m := by
  unfold load memcpy
  apply List.map_congr_left
  intro j hj
  have hj2 : j < m.toNat := List.mem_range.mp hj
  have h1 : ¬ (off ≤ off2 + (j : Int) ∧ off2 + (j : Int) < off + n) := by omega
  dsimp only
  rw [if_neg h1]

theorem load_congr (p q : byte_ptr) (off n : Int)
    (h : ∀ o : Int, off ≤ o → o < off + n → q.mem o = p.mem o) :
    load q off n = load p off n := by
  unfold load
  apply List.map_congr_left
  intro j hj
  have hj2 : j < n.toNat := List.mem_range.mp hj
  exact h _ (by omega) (by omega)

theorem VECTOR_GET_some (vec : _vector) (index : Int) (h0 : 0 ≤ index) (h1 : index < vec._size) :
    VECTOR_GET vec index = some (load vec._data (index * vec._element_size) vec._element_size) := by
  unfold VECTOR_GET vector_get
  have hb : ¬ (index < 0 ∨ index ≥ vec._size) := by omega
  rw [if_neg hb]
  rfl

theorem value_byte_succ (value j : Nat) : value_byte value (j + 1) = value_byte (value / 256) j := by
  unfold value_byte
  rw [pow_succ, mul_comm, Nat.div_div_eq_div_mul]

theorem le_value_map_value_byte (k : Nat) :
    ∀ value : Nat, le_value ((List.range k).map (value_byte value)) = value % 256 ^ k := by
  induction k with
  | zero => intro value; simp [le_value, Nat.mod_one]
  | succ k ih =>
    intro value
    rw [List.range_succ_eq_map, List.map_cons, List.map_map]
    have hf : (value_byte value ∘ Nat.succ) = value_byte (value / 256) := by
      funext j
      exact value_byte_succ value j
    rw [hf, le_value, ih, pow_succ, mul_comm (256 ^ k) 256, Nat.mod_mul]
    simp [value_byte]

theorem le_value_value_bytes (value : Nat) (n : Int) :
    le_value (value_bytes value n) = value % 256 ^ n.toNat :=
  le_value_map_value_byte n.toNat value

/-! ## `vector_push_back` and the growth policy -/

theorem vector_push_back_sparse (M : Int) (heap : Allocation) (vec : _vector) (value : Nat)
    (hs : vec._last_index ≠ vec._size - 1) (h0 : -1 ≤ vec._last_index) :
    vector_push_back M heap vec value =
      some { _size := vec._last_index + 2, _capacity := vec._capacity,
             _element_size := vec._element_size, _last_index := vec._last_index + 1,
             _data := memcpy vec._data ((vec._last_index + 1) * vec._element_size) value
               vec._element_size } := by
  unfold vector_push_back
  rw [if_neg hs]
  dsimp only
  rw [vector_set_some _ _ _ (by omega) (by dsimp only; omega)]
  simp

theorem vector_push_back_sparse_none (M : Int) (heap : Allocation) (vec : _vector) (value : Nat)
    (hs : vec._last_index ≠ vec._size - 1) (h0 : vec._last_index < -1) :
    vector_push_back M heap vec value = none := by
  unfold vector_push_back
  rw [if_neg hs]
  dsimp only
  rw [vector_set_none_iff]
  left
  omega

theorem vector_push_back_dense (M : Int) (heap : Allocation) (vec : _vector) (value : Nat)
    (hd : vec._last_index = vec._size - 1) (h0 : 0 ≤ vec._size) (hc : vec._size ≠ vec._capacity) :
    vector_push_back M heap vec value =
      some { _size := vec._size + 1, _capacity := vec._capacity,
             _element_size := vec._element_size, _last_index := vec._last_index + 1,
             _data := memcpy vec._data ((vec._last_index + 1) * vec._element_size) value
               vec._element_size } := by
  unfold vector_push_back
  rw [if_pos hd]
  dsimp only
  rw [if_neg hc]
  dsimp only
  rw [vector_set_some _ _ _ (by omega) (by dsimp only; omega)]
  simp

theorem vector_push_back_grow (M : Int) (heap : Allocation) (vec : _vector) (value : Nat)
    (hd : vec._last_index = vec._size - 1) (h0 : 0 ≤ vec._size) (hc : vec._size = vec._capacity)
    (hg : heap.grants (vector_calculate_growth M vec (vec._size + 1) * vec._element_size) = true) :
    ∃ p : byte_ptr,
      vector_push_back M heap vec value =
        some { _size := vec._size + 1,
               _capacity := vector_calculate_growth M vec (vec._size + 1),
               _element_size := vec._element_size, _last_index := vec._last_index + 1,
               _data := memcpy p ((vec._last_index + 1) * vec._element_size) value
                 vec._element_size } ∧
      p.null = false ∧
      p.alloc = vector_calculate_growth M vec (vec._size + 1) * vec._element_size ∧
      (vec._data.null = false → ∀ o : Int, 0 ≤ o → o < vec._data.alloc →
        o < vector_calculate_growth M vec (vec._size + 1) * vec._element_size →
        p.mem o = vec._data.mem o) := by
  obtain ⟨p, hp, hn, ha, hm⟩ := vector_reserve_some heap vec _ hg
  refine ⟨p, ?_, hn, ha, hm⟩
  unfold vector_push_back
  rw [if_pos hd]
  dsimp only
  rw [if_pos hc, hp]
  dsimp only
  rw [vector_set_some _ _ _ (by omega) (by dsimp only; omega)]
  simp

theorem vector_calculate_growth_ge (M : Int) (vec : _vector) (r : Int) (h : r ≤ M) :
    r ≤ vector_calculate_growth M vec r := by
  unfold vector_calculate_growth
  dsimp only
  split
  · exact h
  · split <;> omega

theorem vector_calculate_growth_le (M : Int) (vec : _vector) (r : Int) (h : r ≤ M) :
    vector_calculate_growth M vec r ≤ M := by
  unfold vector_calculate_growth
  dsimp only
  split
  · exact le_refl _
  · split <;> omega

theorem vector_calculate_growth_ge_capacity (M : Int) (vec : _vector) (r : Int)
    (h0 : 0 ≤ vec._capacity) (hM : vec._capacity ≤ M) :
    vec._capacity ≤ vector_calculate_growth M vec r := by
  have h2 : vec._capacity.tdiv 2 = vec._capacity / 2 := Int.tdiv_eq_ediv h0 (by decide)
  unfold vector_calculate_growth
  dsimp only
  rw [h2]
  split
  · exact hM
  · split <;> omega

/-! ## What a returning call leaves in the fields and in the buffer -/

theorem vector_set_fields (vec vec1 : _vector) (index : Int) (value : Nat)
    (h : vector_set vec index value = some vec1) :
    0 ≤ index ∧ index < vec._size ∧ vec1._size = vec._size ∧ vec1._capacity = vec._capacity ∧
      vec1._element_size = vec._element_size ∧ vec1._last_index = max vec._last_index index := by
  by_cases hb : index < 0 ∨ index ≥ vec._size
  · rw [(vector_set_none_iff vec index value).2 hb] at h
    exact absurd h (by simp)
  · rw [vector_set_some vec index value (by omega) (by omega)] at h
    cases h
    exact ⟨by omega, by omega, rfl, rfl, rfl, rfl⟩

theorem vector_reserve_fields (heap : Allocation) (vec vec1 : _vector) (n : Int)
    (h : vector_reserve heap vec n = some vec1) :
    vec1._size = vec._size ∧ vec1._capacity = n ∧ vec1._element_size = vec._element_size ∧
      vec1._last_index = vec._last_index := by
  cases hg : heap.grants (n * vec._element_size) with
  | false =>
    rw [vector_reserve_none heap vec n hg] at h
    exact absurd h (by simp)
  | true =>
    obtain ⟨p, hp, -⟩ := vector_reserve_some heap vec n hg
    rw [hp] at h
    cases h
    exact ⟨rfl, rfl, rfl, rfl⟩

theorem vector_resize_fields (heap : Allocation) (vec vec1 : _vector) (k : Int)
    (h : vector_resize heap vec k = some vec1) :
    vec1._size = k ∧ vec1._capacity = max k vec._capacity ∧
      vec1._element_size = vec._element_size ∧ vec1._last_index = vec._last_index := by
  unfold vector_resize at h
  dsimp only at h
  by_cases hk : k > vec._capacity
  · rw [if_pos hk] at h
    obtain ⟨h1, h2, h3, h4⟩ := vector_reserve_fields heap _ vec1 _ h
    exact ⟨h1, by rw [h2]; exact (max_eq_left (le_of_lt hk)).symm, h3, h4⟩
  · rw [if_neg hk] at h
    obtain ⟨h1, h2, h3, h4⟩ := vector_reserve_fields heap _ vec1 _ h
    exact ⟨h1, by rw [h2]; exact (max_eq_right (not_lt.mp hk)).symm, h3, h4⟩

theorem vector_pop_back_fields (vec vec1 : _vector) (h : vector_pop_back vec = some vec1) :
    vec._size ≠ 0 ∧ vec1._size = vec._size - 1 ∧ vec1._last_index = vec._last_index - 1 ∧
      vec1._capacity = vec._capacity ∧ vec1._element_size = vec._element_size := by
  unfold vector_pop_back at h
  by_cases hs : vec._size = 0
  · rw [if_pos hs] at h
    exact absurd h (by simp)
  · rw [if_neg hs] at h
    cases h
    exact ⟨hs, rfl, rfl, rfl, rfl⟩

theorem vector_clear_fields (vec vec1 : _vector) (h : vector_clear vec = some vec1) :
    vec1._size = min vec._size 0 ∧ vec1._last_index = -1 ∧ vec1._capacity = vec._capacity ∧
      vec1._element_size = vec._element_size := by
  obtain ⟨vec2, h1, h2, h3, h4⟩ := vector_clear_loop_spec vec._size.toNat vec (le_refl _)
  unfold vector_clear at h
  rw [h1] at h
  cases h
  exact ⟨h2, rfl, h3, h4⟩

theorem vector_push_back_fields (M : Int) (heap : Allocation) (vec vec1 : _vector) (value : Nat)
    (h : vector_push_back M heap vec value = some vec1) :
    -1 ≤ vec._last_index ∧ vec1._last_index = vec._last_index + 1 ∧
      vec1._size = vec._last_index + 2 ∧ vec1._element_size = vec._element_size ∧
      ((vec._last_index = vec._size - 1 ∧ vec._size = vec._capacity ∧
          vec1._capacity = vector_calculate_growth M vec (vec._size + 1)) ∨
        (¬ (vec._last_index = vec._size - 1 ∧ vec._size = vec._capacity) ∧
          vec1._capacity = vec._capacity)) := by
  unfold vector_push_back at h
  by_cases hd : vec._last_index = vec._size - 1
  · rw [if_pos hd] at h
    dsimp only at h
    by_cases hc : vec._size = vec._capacity
    · rw [if_pos hc] at h
      cases hr : vector_reserve heap vec (vector_calculate_growth M vec (vec._size + 1)) with
      | none => rw [hr] at h; exact absurd h (by simp)
      | some vec2 =>
        rw [hr] at h
        dsimp only at h
        obtain ⟨r1, r2, r3, r4⟩ := vector_reserve_fields heap vec vec2 _ hr
        obtain ⟨s1, s2, s3, s4, s5, s6⟩ := vector_set_fields _ vec1 _ value h
        dsimp only at s1 s2 s3 s4 s5 s6
        refine ⟨by omega, ?_, by omega, by omega, Or.inl ⟨hd, hc, by omega⟩⟩
        rw [s6, max_self]; omega
    · rw [if_neg hc] at h
      dsimp only at h
      obtain ⟨s1, s2, s3, s4, s5, s6⟩ := vector_set_fields _ vec1 _ value h
      dsimp only at s1 s2 s3 s4 s5 s6
      refine ⟨by omega, ?_, by omega, by omega, Or.inr ⟨fun hx => hc hx.2, by omega⟩⟩
      rw [s6, max_self]
  · rw [if_neg hd] at h
    dsimp only at h
    obtain ⟨s1, s2, s3, s4, s5, s6⟩ := vector_set_fields _ vec1 _ value h
    dsimp only at s1 s2 s3 s4 s5 s6
    refine ⟨by omega, ?_, by omega, by omega, Or.inr ⟨fun hx => hd hx.1, by omega⟩⟩
    rw [s6, max_self]

theorem vector_set_data (vec vec1 : _vector) (index : Int) (value : Nat)
    (h : vector_set vec index value = some vec1) :
    vec1._data.alloc = vec._data.alloc ∧ vec1._data.null = vec._data.null := by
  obtain ⟨h0, h1, -⟩ := vector_set_fields vec vec1 index value h
  rw [vector_set_some vec index value h0 h1] at h
  cases h
  exact ⟨rfl, rfl⟩

theorem vector_reserve_data (heap : Allocation) (vec vec1 : _vector) (n : Int)
    (h : vector_reserve heap vec n = some vec1) :
    vec1._data.null = false ∧ vec1._data.alloc = n * vec._element_size := by
  cases hg : heap.grants (n * vec._element_size) with
  | false =>
    rw [vector_reserve_none heap vec n hg] at h
    exact absurd h (by simp)
  | true =>
    obtain ⟨p, hp, hn, ha, -⟩ := vector_reserve_some heap vec n hg
    rw [hp] at h
    cases h
    exact ⟨hn, ha⟩

/-! ## Invariants along sequences of calls -/

theorem within_capacity_step (M : Int) (vec vec1 : _vector) (op : Op)
    (hi : 0 ≤ vec._size ∧ vec._size ≤ vec._capacity)
    (hg : Op.within_capacity M vec op) (h : op.apply M vec = some vec1) :
    0 ≤ vec1._size ∧ vec1._size ≤ vec1._capacity := by
  cases op with
  | set index value =>
    obtain ⟨-, -, s3, s4, -⟩ := vector_set_fields vec vec1 index value h
    omega
  | reserve heap n =>
    obtain ⟨r1, r2, -⟩ := vector_reserve_fields heap vec vec1 n h
    have : vec._size ≤ n := hg
    omega
  | resize heap k =>
    obtain ⟨r1, r2, -⟩ := vector_resize_fields heap vec vec1 k h
    have : 0 ≤ k := hg
    rw [r1, r2]
    exact ⟨this, le_max_left _ _⟩
  | push_back heap value =>
    obtain ⟨p1, p2, p3, -, p5⟩ := vector_push_back_fields M heap vec vec1 value h
    obtain ⟨g1, g2⟩ : vec._last_index ≤ vec._size - 1 ∧
      (vec._size = vec._capacity → vec._size < M) := hg
    rcases p5 with ⟨hd, hc, hcap⟩ | ⟨hn, hcap⟩
    · have := vector_calculate_growth_ge M vec (vec._size + 1) (by have := g2 hc; omega)
      omega
    · by_cases hd : vec._last_index = vec._size - 1
      · have : vec._size ≠ vec._capacity := fun hx => hn ⟨hd, hx⟩
        omega
      · omega
  | pop_back =>
    obtain ⟨q1, q2, -, q4, -⟩ := vector_pop_back_fields vec vec1 h
    omega
  | clear =>
    obtain ⟨c1, -, c3, -⟩ := vector_clear_fields vec vec1 h
    rw [c1, c3, min_eq_right hi.1]
    omega

theorem within_size_step (M : Int) (vec vec1 : _vector) (op : Op)
    (hi : -1 ≤ vec._last_index ∧ vec._last_index ≤ vec._size - 1)
    (hg : Op.within_size vec op) (h : op.apply M vec = some vec1) :
    -1 ≤ vec1._last_index ∧ vec1._last_index ≤ vec1._size - 1 := by
  cases op with
  | set index value =>
    obtain ⟨s1, s2, s3, -, -, s6⟩ := vector_set_fields vec vec1 index value h
    rw [s6, s3]
    exact ⟨le_trans hi.1 (le_max_left _ _), max_le hi.2 (by omega)⟩
  | reserve heap n =>
    obtain ⟨r1, -, -, r4⟩ := vector_reserve_fields heap vec vec1 n h
    omega
  | resize heap k =>
    obtain ⟨r1, -, -, r4⟩ := vector_resize_fields heap vec vec1 k h
    have : vec._last_index < k := hg
    omega
  | push_back heap value =>
    obtain ⟨p1, p2, p3, -⟩ := vector_push_back_fields M heap vec vec1 value h
    omega
  | pop_back =>
    obtain ⟨q1, q2, q3, -⟩ := vector_pop_back_fields vec vec1 h
    have : 0 ≤ vec._last_index := hg
    omega
  | clear =>
    obtain ⟨c1, c2, -⟩ := vector_clear_fields vec vec1 h
    rw [c1, c2, min_eq_right (by omega)]
    omega

theorem guarded_invariant (guard : _vector → Op → Prop) (inv : _vector → Prop) (M : Int)
    (step : ∀ vec vec1 op, inv vec → guard vec op → op.apply M vec = some vec1 → inv vec1)
    (ops : List Op) :
    ∀ vec vec1, inv vec → guarded guard M vec ops → run M vec ops = some vec1 → inv vec1 := by
  induction ops with
  | nil =>
    intro vec vec1 hi _ hr
    cases hr
    exact hi
  | cons op ops ih =>
    intro vec vec1 hi hg hr
    unfold guarded at hg
    unfold run at hr
    cases ha : op.apply M vec with
    | none => rw [ha] at hr; exact absurd hr (by simp)
    | some vec2 =>
      rw [ha] at hr hg
      exact ih vec2 vec1 (step vec vec2 op hi hg.1 ha) hg.2 hr

theorem run_append (M : Int) (ops1 ops2 : List Op) :
    ∀ vec vec1, run M vec ops1 = some vec1 → run M vec (ops1 ++ ops2) = run M vec1 ops2 := by
  induction ops1 with
  | nil =>
    intro vec vec1 h
    cases h
    rfl
  | cons op ops ih =>
    intro vec vec1 h
    rw [List.cons_append]
    have hl : run M vec (op :: (ops ++ ops2)) =
        match op.apply M vec with
        | none => none
        | some vec2 => run M vec2 (ops ++ ops2) := rfl
    have hh : run M vec (op :: ops) =
        match op.apply M vec with
        | none => none
        | some vec2 => run M vec2 ops := rfl
    rw [hl]
    rw [hh] at h
    cases ha : op.apply M vec with
    | none => rw [ha] at h; exact absurd h (by simp)
    | some vec2 =>
      rw [ha] at h
      exact ih vec2 vec1 h

theorem owns_buffer_step (M : Int) (vec vec1 : _vector) (op : Op)
    (hb : owns_buffer vec) (h : op.apply M vec = some vec1) : owns_buffer vec1 := by
  obtain ⟨ha, hn⟩ := hb
  cases op with
  | set index value =>
    obtain ⟨-, -, -, s4, s5, -⟩ := vector_set_fields vec vec1 index value h
    obtain ⟨d1, d2⟩ := vector_set_data vec vec1 index value h
    exact ⟨by rw [d1, s4, s5]; exact ha, by rw [d2, s4]; exact hn⟩
  | reserve heap n =>
    obtain ⟨-, r2, r3, -⟩ := vector_reserve_fields heap vec vec1 n h
    obtain ⟨d1, d2⟩ := vector_reserve_data heap vec vec1 n h
    exact ⟨by rw [d2, r2, r3], by rw [d1]; intro hx; exact absurd hx (by simp)⟩
  | resize heap k =>
    have h2 : vector_resize heap vec k = some vec1 := h
    obtain ⟨-, r2, r3, -⟩ := vector_resize_fields heap vec vec1 k h2
    unfold vector_resize at h2
    dsimp only at h2
    by_cases hk : k > vec._capacity
    · rw [if_pos hk] at h2
      obtain ⟨d1, d2⟩ := vector_reserve_data heap _ vec1 _ h2
      dsimp only at d2
      exact ⟨by rw [d2, r2, r3, max_eq_left (le_of_lt hk)],
        by rw [d1]; intro hx; exact absurd hx (by simp)⟩
    · rw [if_neg hk] at h2
      obtain ⟨d1, d2⟩ := vector_reserve_data heap _ vec1 _ h2
      dsimp only at d2
      exact ⟨by rw [d2, r2, r3, max_eq_right (not_lt.mp hk)],
        by rw [d1]; intro hx; exact absurd hx (by simp)⟩
  | push_back heap value =>
    have h2 : vector_push_back M heap vec value = some vec1 := h
    obtain ⟨p1, p2, p3, p4, p5⟩ := vector_push_back_fields M heap vec vec1 value h2
    unfold vector_push_back at h2
    by_cases hd : vec._last_index = vec._size - 1
    · rw [if_pos hd] at h2
      dsimp only at h2
      by_cases hc : vec._size = vec._capacity
      · rw [if_pos hc] at h2
        cases hr : vector_reserve heap vec (vector_calculate_growth M vec (vec._size + 1)) with
        | none => rw [hr] at h2; exact absurd h2 (by simp)
        | some vec2 =>
          rw [hr] at h2
          dsimp only at h2
          obtain ⟨d1, d2⟩ := vector_reserve_data heap vec vec2 _ hr
          obtain ⟨e1, e2⟩ := vector_set_data _ vec1 _ value h2
          dsimp only at e1 e2
          rcases p5 with ⟨-, -, hcap⟩ | ⟨hno, -⟩
          · exact ⟨by rw [e1, d2, hcap, p4],
              by rw [e2, d1]; intro hx; exact absurd hx (by simp)⟩
          · exact absurd ⟨hd, hc⟩ hno
      · rw [if_neg hc] at h2
        dsimp only at h2
        obtain ⟨e1, e2⟩ := vector_set_data _ vec1 _ value h2
        dsimp only at e1 e2
        rcases p5 with ⟨-, hc2, -⟩ | ⟨-, hcap⟩
        · exact absurd hc2 hc
        · exact ⟨by rw [e1, hcap, p4]; exact ha, by rw [e2, hcap]; exact hn⟩
    · rw [if_neg hd] at h2
      dsimp only at h2
      obtain ⟨e1, e2⟩ := vector_set_data _ vec1 _ value h2
      dsimp only at e1 e2
      rcases p5 with ⟨hd2, -, -⟩ | ⟨-, hcap⟩
      · exact absurd hd2 hd
      · exact ⟨by rw [e1, hcap, p4]; exact ha, by rw [e2, hcap]; exact hn⟩
  | pop_back =>
    have h2 : vector_pop_back vec = some vec1 := h
    obtain ⟨q1, -, -, q4, q5⟩ := vector_pop_back_fields vec vec1 h2
    unfold vector_pop_back at h2
    rw [if_neg q1] at h2
    cases h2
    exact ⟨ha, hn⟩
  | clear =>
    have h2 : vector_clear vec = some vec1 := h
    obtain ⟨-, -, c3, c4⟩ := vector_clear_fields vec vec1 h2
    unfold vector_clear at h2
    cases hl : vector_clear_loop vec._size.toNat vec with
    | none => rw [hl] at h2; exact absurd h2 (by simp)
    | some vec2 =>
      rw [hl] at h2
      cases h2
      obtain ⟨d1, d2⟩ := vector_clear_loop_data _ vec vec2 hl
      dsimp only at c3 c4 ⊢
      exact ⟨by show vec2._data.alloc = vec2._capacity * vec2._element_size
                rw [d1, c3, c4]; exact ha,
        by show vec2._data.null = true → vec2._capacity = 0
           rw [d2, c3]; exact hn⟩

theorem run_owns_buffer (M : Int) (ops : List Op) :
    ∀ vec vec1, owns_buffer vec → run M vec ops = some vec1 → owns_buffer vec1 := by
  induction ops with
  | nil =>
    intro vec vec1 hb h
    cases h
    exact hb
  | cons op ops ih =>
    intro vec vec1 hb h
    have hh : run M vec (op :: ops) =
        match op.apply M vec with
        | none => none
        | some vec2 => run M vec2 ops := rfl
    rw [hh] at h
    cases ha : op.apply M vec with
    | none => rw [ha] at h; exact absurd h (by simp)
    | some vec2 =>
      rw [ha] at h
      exact ih vec2 vec1 (owns_buffer_step M vec vec2 op hb ha) h

theorem owns_buffer_vector_new (element_size : Int) : owns_buffer (vector_new element_size) := by
  constructor
  · simp [vector_new, NULL]
  · intro _
    rfl

theorem last_index_not_raised (M : Int) (vec vec1 : _vector) (op : Op)
    (h0 : -1 ≤ vec._last_index)
    (hset : ∀ index value, op ≠ Op.set index value)
    (hpush : ∀ heap value, op ≠ Op.push_back heap value)
    (h : op.apply M vec = some vec1) :
    vec1._last_index ≤ vec._last_index := by
  cases op with
  | set index value => exact absurd rfl (hset index value)
  | push_back heap value => exact absurd rfl (hpush heap value)
  | reserve heap n =>
    obtain ⟨-, -, -, r4⟩ := vector_reserve_fields heap vec vec1 n h
    omega
  | resize heap k =>
    obtain ⟨-, -, -, r4⟩ := vector_resize_fields heap vec vec1 k h
    omega
  | pop_back =>
    obtain ⟨-, -, q3, -⟩ := vector_pop_back_fields vec vec1 h
    omega
  | clear =>
    obtain ⟨-, c2, -⟩ := vector_clear_fields vec vec1 h
    omega

/-! ## A run of `vector_push_back` on a dense vector -/

theorem slot_end_le (element_size i s : Int) (he : 0 ≤ element_size) (h : i + 1 ≤ s) :
    i * element_size + element_size ≤ s * element_size := by
  have := mul_le_mul_of_nonneg_right h he
  linarith [add_mul i 1 element_size]

theorem vector_push_back_packed (M : Int) (heap : Allocation) (vec : _vector) (value : Nat)
    (hp : packed M vec) (hM : vec._size < M) (hg : heap.granted = true) :
    ∃ vec1, vector_push_back M heap vec value = some vec1 ∧ packed M vec1 ∧
      vec1._size = vec._size + 1 ∧ vec1._element_size = vec._element_size ∧
      (∀ i : Int, 0 ≤ i → i < vec._size →
        load vec1._data (i * vec._element_size) vec._element_size =
          load vec._data (i * vec._element_size) vec._element_size) ∧
      load vec1._data (vec._size * vec._element_size) vec._element_size =
        value_bytes value vec._element_size := by
  obtain ⟨he, hd, h0, hsc, hcM, ha, hnull⟩ := hp
  have hli : vec._last_index + 1 = vec._size := by omega
  by_cases hc : vec._size = vec._capacity
  · have hge := vector_calculate_growth_ge M vec (vec._size + 1) (by omega)
    have hle := vector_calculate_growth_le M vec (vec._size + 1) (by omega)
    have hgr : heap.grants
        (vector_calculate_growth M vec (vec._size + 1) * vec._element_size) = true := by
      unfold Allocation.grants
      rw [hg]
      have : 0 ≤ vector_calculate_growth M vec (vec._size + 1) * vec._element_size :=
        mul_nonneg (by omega) he
      simpa using this
    obtain ⟨p, hpush, hpn, hpa, hpm⟩ := vector_push_back_grow M heap vec value hd h0 hc hgr
    refine ⟨_, hpush, ⟨he, ?_, ?_, ?_, hle, ?_, ?_⟩, rfl, rfl, ?_, ?_⟩
    · show vec._last_index + 1 = vec._size + 1 - 1
      omega
    · show 0 ≤ vec._size + 1
      omega
    · exact hge
    · exact hpa
    · intro _
      exact hpn
    · intro i hi0 hi1
      dsimp only
      rw [hli, load_memcpy_other _ _ _ _ _ _
        (Or.inl (slot_end_le vec._element_size i vec._size he (by omega)))]
      apply load_congr
      intro o ho1 ho2
      have hend := slot_end_le vec._element_size i vec._size he (by omega)
      have hend2 := slot_end_le vec._element_size vec._size
        (vector_calculate_growth M vec (vec._size + 1)) he hge
      have hi0e : 0 ≤ i * vec._element_size := mul_nonneg hi0 he
      have hs0e : 0 ≤ vec._size * vec._element_size := mul_nonneg h0 he
      apply hpm (hnull (by omega)) o (by omega)
      · rw [ha, ← hc]; omega
      · omega
    · dsimp only
      rw [hli, load_memcpy_same]
  · refine ⟨_, vector_push_back_dense M heap vec value hd h0 hc,
      ⟨he, ?_, ?_, ?_, hcM, ha, hnull⟩, rfl, rfl, ?_, ?_⟩
    · show vec._last_index + 1 = vec._size + 1 - 1
      omega
    · show 0 ≤ vec._size + 1
      omega
    · show vec._size + 1 ≤ vec._capacity
      omega
    · intro i hi0 hi1
      dsimp only
      rw [hli, load_memcpy_other _ _ _ _ _ _
        (Or.inl (slot_end_le vec._element_size i vec._size he (by omega)))]
    · dsimp only
      rw [hli, load_memcpy_same]

theorem run_pushes_packed (M : Int) :
    ∀ (ps : List (Allocation × Nat)) (vec : _vector), packed M vec →
      (∀ p ∈ ps, p.1.granted = true) → vec._size + ps.length ≤ M →
      ∃ vec1, run M vec (pushes ps) = some vec1 ∧ packed M vec1 ∧
        vec1._size = vec._size + ps.length ∧ vec1._element_size = vec._element_size ∧
        (∀ i : Int, 0 ≤ i → i < vec._size →
          load vec1._data (i * vec._element_size) vec._element_size =
            load vec._data (i * vec._element_size) vec._element_size) ∧
        (∀ (j : Nat) (h : j < ps.length),
          load vec1._data ((vec._size + j) * vec._element_size) vec._element_size =
            value_bytes (ps.get ⟨j, h⟩).2 vec._element_size) := by
  intro ps
  induction ps with
  | nil =>
    intro vec hp _ _
    refine ⟨vec, rfl, hp, by simp, rfl, fun _ _ _ => rfl, ?_⟩
    intro j h
    exact absurd h (by simp)
  | cons p ps ih =>
    intro vec hp hg hM
    have hlen : ((p :: ps).length : Int) = ps.length + 1 := by simp
    obtain ⟨vec1, h1, hp1, hs1, he1, hold1, hnew1⟩ :=
      vector_push_back_packed M p.1 vec p.2 hp (by omega) (hg p (List.mem_cons_self _ _))
    obtain ⟨vec2, h2, hp2, hs2, he2, hold2, hnew2⟩ :=
      ih vec1 hp1 (fun q hq => hg q (List.mem_cons_of_mem _ hq)) (by omega)
    refine ⟨vec2, ?_, hp2, by omega, by rw [he2, he1], ?_, ?_⟩
    · show run M vec (Op.push_back p.1 p.2 :: pushes ps) = some vec2
      unfold run
      show (match vector_push_back M p.1 vec p.2 with
        | none => none
        | some vec1 => run M vec1 (pushes ps)) = some vec2
      rw [h1]
      exact h2
    · intro i hi0 hi1
      have := hold2 i hi0 (by omega)
      rw [he1] at this
      rw [this]
      exact hold1 i hi0 hi1
    · intro j h
      cases j with
      | zero =>
        have := hold2 vec._size hp.2.2.1 (by omega)
        rw [he1] at this
        simp only [List.get_eq_getElem, List.getElem_cons_zero, Nat.cast_zero, add_zero]
        rw [this]
        exact hnew1
      | succ j =>
        have hj : j < ps.length := by simpa using h
        have := hnew2 j hj
        rw [he1, hs1] at this
        simp only [List.get_eq_getElem, List.getElem_cons_succ, Nat.cast_succ]
        simp only [List.get_eq_getElem] at this
        rw [← this]
        congr 2
        ring

theorem packed_vector_new (M element_size : Int) (he : 0 ≤ element_size) (hM : 0 ≤ M) :
    packed M (vector_new element_size) := by
  refine ⟨he, rfl, le_refl _, le_refl _, hM, ?_, ?_⟩
  · simp [vector_new, NULL]
  · intro h
    exact absurd h (by simp [vector_new])

/-! ## Counting the reallocations of a run of `vector_push_back` -/

theorem cube_le_cube (a b : Int) (h0 : 0 ≤ a) (h : a ≤ b) : a ^ 3 ≤ b ^ 3 :=
  pow_le_pow_left₀ h0 h 3

theorem growth_cube (c g : Int) (h0 : 0 ≤ c) (h1 : c + 1 ≤ g) (h2 : 3 * c ≤ 2 * g + 1) :
    2 * c ^ 3 + 1 ≤ g ^ 3 := by
  by_cases hc : c ≤ 3
  · have hg : (c + 1) ^ 3 ≤ g ^ 3 := cube_le_cube (c + 1) g (by omega) h1
    have hs : 2 * c ^ 3 + 1 ≤ (c + 1) ^ 3 := by
      interval_cases c <;> norm_num
    exact le_trans hs hg
  · have hc4 : 4 ≤ c := by omega
    have hg : (3 * c - 1) ^ 3 ≤ (2 * g) ^ 3 := cube_le_cube (3 * c - 1) (2 * g) (by omega) (by omega)
    have hs : 16 * c ^ 3 + 8 ≤ (3 * c - 1) ^ 3 := by
      nlinarith [mul_nonneg (mul_nonneg h0 h0) (by omega : (0 : Int) ≤ c - 4), mul_nonneg h0 h0]
    have he : (2 * g) ^ 3 = 8 * g ^ 3 := by ring
    rw [he] at hg
    omega

theorem growth_phase_bound (M : Int) (vec : _vector) (k : Nat) (cp : Int)
    (h0 : 0 ≤ vec._size) (hp : growth_phase M vec k cp) :
    (2 : Int) ^ k ≤ 16 * vec._size ^ 3 + 4 ∧ cp ≤ 5 * vec._size := by
  have hs3 : 0 ≤ vec._size ^ 3 := pow_nonneg h0 3
  rcases hp with ⟨a1, a2, a3, a4⟩ | ⟨b1, b2, b3, b4, b5⟩ | ⟨c1, c2, c3⟩
  · have hc : vec._capacity ^ 3 ≤ (2 * vec._size) ^ 3 :=
      cube_le_cube _ _ (by omega) (by omega)
    have he : (2 * vec._size) ^ 3 = 8 * vec._size ^ 3 := by ring
    rw [he] at hc
    constructor
    · omega
    · omega
  · constructor
    · omega
    · omega
  · constructor
    · omega
    · omega

theorem push_back_reserves_iff (vec : _vector) (hd : vec._last_index = vec._size - 1) :
    push_back_reserves vec = true ↔ vec._size = vec._capacity := by
  unfold push_back_reserves
  simp [hd]

theorem growth_phase_step (M : Int) (heap : Allocation) (vec vec1 : _vector) (value : Nat)
    (k : Nat) (cp : Int)
    (hd : vec._last_index = vec._size - 1) (h0 : 0 ≤ vec._size)
    (hp : growth_phase M vec k cp)
    (h : vector_push_back M heap vec value = some vec1) :
    vec1._last_index = vec1._size - 1 ∧ vec1._size = vec._size + 1 ∧
    growth_phase M vec1 (k + if push_back_reserves vec then 1 else 0)
      (cp + if push_back_reserves vec then max 0 (min vec._capacity vec1._capacity) else 0) := by
  obtain ⟨p1, p2, p3, -, p5⟩ := vector_push_back_fields M heap vec vec1 value h
  have hs1 : vec1._size = vec._size + 1 := by omega
  refine ⟨by omega, hs1, ?_⟩
  unfold growth_phase at hp ⊢
  have hs3 : 0 ≤ vec._size ^ 3 := pow_nonneg h0 3
  have hcube : vec._size ^ 3 ≤ vec1._size ^ 3 := cube_le_cube _ _ h0 (by omega)
  by_cases hc : vec._size = vec._capacity
  · have hres : push_back_reserves vec = true := (push_back_reserves_iff vec hd).2 hc
    rw [hres]
    simp only [if_true]
    have hcap1 : vec1._capacity = vector_calculate_growth M vec (vec._size + 1) := by
      rcases p5 with ⟨-, -, hx⟩ | ⟨hno, -⟩
      · exact hx
      · exact absurd ⟨hd, hc⟩ hno
    have hc0 : 0 ≤ vec._capacity := by omega
    have h2 : vec._capacity.tdiv 2 = vec._capacity / 2 := Int.tdiv_eq_ediv hc0 (by decide)
    have hpow : (2 : Int) ^ (k + 1) = 2 * 2 ^ k := by rw [pow_succ]; ring
    rw [hpow]
    unfold vector_calculate_growth at hcap1
    dsimp only at hcap1
    rw [h2] at hcap1
    have hcc : vec._capacity ^ 3 = vec._size ^ 3 := by rw [hc]
    by_cases hclamp : vec._capacity > M - vec._capacity / 2
    · rw [if_pos hclamp] at hcap1
      by_cases hM : vec._size + 1 ≤ M
      · -- grown to the maximum
        have hmin : max 0 (min vec._capacity vec1._capacity) = vec._capacity := by
          rw [hcap1, min_eq_left (by omega), max_eq_right hc0]
        rw [hmin]
        right; left
        rcases hp with ⟨a1, a2, a3, a4⟩ | ⟨b1, b2, b3, b4, b5⟩ | ⟨c1, c2, c3⟩
        · exact ⟨by omega, hcap1, by omega, by omega, by omega⟩
        · omega
        · omega
      · -- the maximum is not above the size
        have hmin : max 0 (min vec._capacity vec1._capacity) ≤ vec._capacity :=
          max_le hc0 (min_le_left _ _)
        right; right
        rcases hp with ⟨a1, a2, a3, a4⟩ | ⟨b1, b2, b3, b4, b5⟩ | ⟨c1, c2, c3⟩
        · exact ⟨by omega, by omega, by omega⟩
        · exact ⟨by omega, by omega, by omega⟩
        · omega
    · rw [if_neg hclamp] at hcap1
      have hg1 : vec._capacity + 1 ≤ vec1._capacity := by
        rw [hcap1]; split <;> omega
      have hg2 : 3 * vec._capacity ≤ 2 * vec1._capacity + 1 := by
        rw [hcap1]; split <;> omega
      have hg3 : 2 * vec1._capacity ≤ 3 * vec._capacity + 4 := by
        rw [hcap1]; split <;> omega
      have hgc := growth_cube vec._capacity vec1._capacity hc0 hg1 hg2
      have hmin : max 0 (min vec._capacity vec1._capacity) = vec._capacity := by
        rw [min_eq_left (by omega), max_eq_right hc0]
      rw [hmin]
      rcases hp with ⟨a1, a2, a3, a4⟩ | ⟨b1, b2, b3, b4, b5⟩ | ⟨c1, c2, c3⟩
      · left
        exact ⟨by omega, by omega, by omega, by omega⟩
      · omega
      · omega
  · have hres : push_back_reserves vec = false := by
      cases hx : push_back_reserves vec with
      | false => rfl
      | true => exact absurd ((push_back_reserves_iff vec hd).1 hx) hc
    rw [hres]
    simp only [Bool.false_eq_true, if_false, add_zero]
    have hcap1 : vec1._capacity = vec._capacity := by
      rcases p5 with ⟨-, hx, -⟩ | ⟨-, hx⟩
      · exact absurd hx hc
      · exact hx
    rcases hp with ⟨a1, a2, a3, a4⟩ | ⟨b1, b2, b3, b4, b5⟩ | ⟨c1, c2, c3⟩
    · left
      rw [hcap1]
      exact ⟨by omega, by omega, a3, by omega⟩
    · right; left
      rw [hcap1]
      exact ⟨by omega, b2, b3, by omega, by omega⟩
    · right; right
      rw [hcap1]
      exact ⟨by omega, by omega, by omega⟩

theorem amortized_run (M : Int) :
    ∀ (ps : List (Allocation × Nat)) (vec : _vector) (k : Nat) (cp : Int),
      vec._last_index = vec._size - 1 → 0 ≤ vec._size → growth_phase M vec k cp →
      (2 : Int) ^ (k + reserve_calls M vec ps) ≤ 32 * (vec._size + ps.length) ^ 3 + 8 ∧
      cp + copied_elements M vec ps ≤ 5 * (vec._size + ps.length) := by
  intro ps
  induction ps with
  | nil =>
    intro vec k cp _ h0 hp
    obtain ⟨b1, b2⟩ := growth_phase_bound M vec k cp h0 hp
    have hs3 : 0 ≤ vec._size ^ 3 := pow_nonneg h0 3
    simp only [reserve_calls, copied_elements, List.length_nil, Nat.cast_zero, add_zero]
    constructor
    · omega
    · omega
  | cons p ps ih =>
    intro vec k cp hd h0 hp
    obtain ⟨b1, b2⟩ := growth_phase_bound M vec k cp h0 hp
    have hlen : ((p :: ps).length : Int) = ps.length + 1 := by simp
    have hl0 : (0 : Int) ≤ ps.length := Int.ofNat_nonneg _
    rw [hlen]
    have hcube : vec._size ^ 3 ≤ (vec._size + (ps.length + 1)) ^ 3 :=
      cube_le_cube _ _ h0 (by omega)
    cases hpush : vector_push_back M p.1 vec p.2 with
    | none =>
      have hr : reserve_calls M vec (p :: ps) = if push_back_reserves vec then 1 else 0 := by
        simp only [reserve_calls, hpush, add_zero]
      have hcp : copied_elements M vec (p :: ps) = 0 := by
        simp only [copied_elements, hpush]
      rw [hr, hcp]
      constructor
      · have hle : (2 : Int) ^ (k + if push_back_reserves vec then 1 else 0) ≤ 2 * 2 ^ k := by
          split
          · rw [pow_succ]; omega
          · have : (0 : Int) ≤ 2 ^ k := by positivity
            simp only [add_zero]
            omega
        omega
      · omega
    | some vec1 =>
      obtain ⟨s1, s2, s3⟩ := growth_phase_step M p.1 vec vec1 p.2 k cp hd h0 hp hpush
      obtain ⟨i1, i2⟩ := ih vec1 _ _ s1 (by omega) s3
      have hr : reserve_calls M vec (p :: ps) =
          (if push_back_reserves vec then 1 else 0) + reserve_calls M vec1 ps := by
        simp only [reserve_calls, hpush, add_zero]
      have hcp : copied_elements M vec (p :: ps) =
          (if push_back_reserves vec then max 0 (min vec._capacity vec1._capacity) else 0) +
            copied_elements M vec1 ps := by
        simp only [copied_elements, hpush]
      rw [hr, hcp]
      have he : vec1._size + (ps.length : Int) = vec._size + (ps.length + 1) := by omega
      rw [he] at i1 i2
      constructor
      · rw [← add_assoc]
        exact i1
      · rw [← add_assoc]
        exact i2

/-! ## The properties of the description -/

/-- C1, as the code has it.  For an element size that is not negative and `N`
values, `N` not above `VECTOR_MAX_SIZE`, pushed onto a new vector with every
allocation granted: all `N` calls of `vector_push_back` return, and then
`vector_size` is `N`, `_last_index` is `N - 1`, `vector_capacity` is at least
`N`, and every slot `i < N` reads back the bytes copied from the `i`-th value:
as a number, that value cut to `_element_size` bytes, which is the value itself
when it fits (the 100 values below 10 in four-byte slots of `example.c`). -/
theorem push_back_sequence (M element_size : Int) (ps : List (Allocation × Nat))
    (he : 0 ≤ element_size) (hg : ∀ p ∈ ps, p.1.granted = true) (hN : (ps.length : Int) ≤ M) :
    ∃ vec, run M (vector_new element_size) (pushes ps) = some vec ∧
      vector_size vec = ps.length ∧ vec._last_index = ps.length - 1 ∧
      vector_capacity vec ≥ ps.length ∧
      ∀ (i : Nat) (h : i < ps.length),
        VECTOR_GET vec i = some (value_bytes (ps.get ⟨i, h⟩).2 element_size) ∧
        (VECTOR_GET vec i).map le_value = some ((ps.get ⟨i, h⟩).2 % 256 ^ element_size.toNat) ∧
        ((ps.get ⟨i, h⟩).2 < 256 ^ element_size.toNat →
          (VECTOR_GET vec i).map le_value = some (ps.get ⟨i, h⟩).2) := by
  have hM : 0 ≤ M := le_trans (Int.ofNat_nonneg _) hN
  obtain ⟨vec, h1, hp, hs, hel, -, hnew⟩ :=
    run_pushes_packed M ps (vector_new element_size) (packed_vector_new M element_size he hM) hg
      (by simpa [vector_new] using hN)
  have hs2 : vec._size = ps.length := by simpa [vector_new] using hs
  have hel2 : vec._element_size = element_size := by simpa [vector_new] using hel
  obtain ⟨-, hd, -, hsc, -⟩ := hp
  refine ⟨vec, h1, hs2, by omega, ?_, ?_⟩
  · show vec._capacity ≥ ps.length
    omega
  · intro i h
    have hget : VECTOR_GET vec i = some (value_bytes (ps.get ⟨i, h⟩).2 element_size) := by
      rw [VECTOR_GET_some vec i (by omega) (by omega), hel2]
      have := hnew i h
      simp only [vector_new, zero_add] at this
      rw [this]
    have hval : (VECTOR_GET vec i).map le_value =
        some ((ps.get ⟨i, h⟩).2 % 256 ^ element_size.toNat) := by
      rw [hget, Option.map_some', le_value_value_bytes]
    refine ⟨hget, hval, ?_⟩
    intro hlt
    rw [hval, Nat.mod_eq_of_lt hlt]

theorem push_back_sequence_witness :
    ∃ vec, run 2147483647 (vector_new 4) (pushes [(sure, 7), (sure, 3), (sure, 9)]) = some vec ∧
      vector_size vec = [(sure, 7), (sure, 3), (sure, 9)].length ∧
      vec._last_index = [(sure, 7), (sure, 3), (sure, 9)].length - 1 ∧
      vector_capacity vec ≥ [(sure, 7), (sure, 3), (sure, 9)].length ∧
      ∀ (i : Nat) (h : i < [(sure, 7), (sure, 3), (sure, 9)].length),
        VECTOR_GET vec i =
          some (value_bytes ([(sure, 7), (sure, 3), (sure, 9)].get ⟨i, h⟩).2 4) ∧
        (VECTOR_GET vec i).map le_value =
          some (([(sure, 7), (sure, 3), (sure, 9)].get ⟨i, h⟩).2 % 256 ^ (4 : Int).toNat) ∧
        (([(sure, 7), (sure, 3), (sure, 9)].get ⟨i, h⟩).2 < 256 ^ (4 : Int).toNat →
          (VECTOR_GET vec i).map le_value =
            some ([(sure, 7), (sure, 3), (sure, 9)].get ⟨i, h⟩).2) :=
  push_back_sequence 2147483647 4 [(sure, 7), (sure, 3), (sure, 9)] (by decide)
    (by simp [sure]) (by decide)

/-- C1 fails past the maximum.  With `VECTOR_MAX_SIZE` 2147483646 and one-byte
elements, 2147483647 calls of `vector_push_back` on a new vector all return,
`vector_size` is 2147483647 and `vector_capacity` is 2147483646, one less than
the number of values pushed.  (With `VECTOR_MAX_SIZE` 3, four calls leave
size 4 and capacity 3.) -/
theorem push_back_sequence_beyond_max :
    (∃ vec, run 2147483646 (vector_new 1) (pushes (List.replicate 2147483647 (sure, 0))) = some vec ∧
      vector_size vec = 2147483647 ∧ vector_capacity vec = 2147483646) ∧
    (run 3 (vector_new 4) (pushes [(sure, 1), (sure, 2), (sure, 3), (sure, 4)])).map
      (fun vec => (vector_size vec, vector_capacity vec)) = some (4, 3) := by
  refine ⟨?_, by decide⟩
  obtain ⟨vec1, h1, hp1, hs1, he1, -, -⟩ :=
    run_pushes_packed 2147483646 (List.replicate 2147483646 (sure, 0)) (vector_new 1)
      (packed_vector_new 2147483646 1 (by decide) (by decide))
      (fun p hp => by rw [List.eq_of_mem_replicate hp]; rfl)
      (by rw [List.length_replicate]; decide)
  rw [List.length_replicate] at hs1
  have hs : vec1._size = 2147483646 := by rw [hs1]; rfl
  obtain ⟨-, hd, h0, hsc, hcM, -, -⟩ := hp1
  have hc : vec1._size = vec1._capacity := by omega
  have hcap : vec1._capacity = 2147483646 := by omega
  have hel : vec1._element_size = 1 := he1
  have hgrow : vector_calculate_growth 2147483646 vec1 (vec1._size + 1) = 2147483646 := by
    unfold vector_calculate_growth
    rw [hcap]
    rfl
  obtain ⟨p, hpush, -⟩ := vector_push_back_grow 2147483646 sure vec1 0 hd h0 hc
    (by rw [hgrow, hel]; rfl)
  have hsplit : pushes (List.replicate 2147483647 (sure, 0)) =
      pushes (List.replicate 2147483646 (sure, 0)) ++ [Op.push_back sure 0] := by
    unfold pushes
    rw [show (2147483647 : Nat) = 2147483646 + 1 from rfl, List.replicate_succ',
      List.map_append]
    rfl
  have key : ∀ vec2 : _vector, vector_push_back 2147483646 sure vec1 0 = some vec2 →
      vec2._size = 2147483647 → vec2._capacity = 2147483646 →
      ∃ vec, run 2147483646 (vector_new 1) (pushes (List.replicate 2147483647 (sure, 0))) =
          some vec ∧ vector_size vec = 2147483647 ∧ vector_capacity vec = 2147483646 := by
    intro vec2 h2 hsz hcp
    refine ⟨vec2, ?_, hsz, hcp⟩
    rw [hsplit, run_append 2147483646 _ _ _ vec1 h1]
    have hl : run 2147483646 vec1 [Op.push_back sure 0] =
        match vector_push_back 2147483646 sure vec1 0 with
        | none => none
        | some vec3 => run 2147483646 vec3 [] := rfl
    rw [hl, h2]
    rfl
  exact key _ hpush (by show vec1._size + 1 = 2147483647; omega) hgrow

/-- C2, as the code has it.  From `vector_new`, along every sequence of calls
that return, in which each `vector_reserve` asks for no less than the size,
each `vector_resize` for a size that is not negative, and each
`vector_push_back` meets a last index within the size and, on a full vector,
a size below `VECTOR_MAX_SIZE`: `0 <= _size <= _capacity` at the end. -/
theorem size_within_capacity (M : Int) (element_size : Int) (ops : List Op) (vec : _vector)
    (hg : guarded (Op.within_capacity M) M (vector_new element_size) ops)
    (hr : run M (vector_new element_size) ops = some vec) :
    0 ≤ vec._size ∧ vec._size ≤ vec._capacity :=
  guarded_invariant (Op.within_capacity M) (fun v => 0 ≤ v._size ∧ v._size ≤ v._capacity) M
    (within_capacity_step M) ops (vector_new element_size) vec
    (by simp [vector_new]) hg hr

theorem size_within_capacity_witness :
    ∃ vec, run 2147483647 (vector_new 4)
        [Op.push_back sure 1, Op.push_back sure 2, Op.resize sure 5, Op.set 3 9, Op.pop_back,
         Op.reserve sure 10, Op.push_back sure 3, Op.clear] = some vec ∧
      0 ≤ vec._size ∧ vec._size ≤ vec._capacity := by
  cases h : run 2147483647 (vector_new 4)
      [Op.push_back sure 1, Op.push_back sure 2, Op.resize sure 5, Op.set 3 9, Op.pop_back,
       Op.reserve sure 10, Op.push_back sure 3, Op.clear] with
  | none => exact absurd (congrArg Option.isSome h) (by decide)
  | some vec => exact ⟨vec, rfl, size_within_capacity 2147483647 4 _ vec (by decide) h⟩

/-- C2 fails.  On a new vector of four-byte elements, two calls of
`vector_push_back` and `vector_reserve(1)` return with size 2 and capacity 1;
and one `vector_push_back` and `vector_resize(-1)` return with size -1. -/
theorem size_exceeds_capacity :
    (run 2147483647 (vector_new 4)
        [Op.push_back sure 1, Op.push_back sure 2, Op.reserve sure 1]).map
      (fun vec => (vec._size, vec._capacity)) = some (2, 1) ∧
    (run 2147483647 (vector_new 4) [Op.push_back sure 1, Op.resize sure (-1)]).map
      (fun vec => (vec._size, vec._capacity)) = some (-1, 1) := by
  decide

/-- C3, as the code has it.  From `vector_new`, along every sequence of calls
that return, in which each `vector_resize` asks for a size above the last
index and each `vector_pop_back` meets a last index that is not negative:
`-1 <= _last_index <= _size - 1` at the end. -/
theorem last_index_within_size (M : Int) (element_size : Int) (ops : List Op) (vec : _vector)
    (hg : guarded Op.within_size M (vector_new element_size) ops)
    (hr : run M (vector_new element_size) ops = some vec) :
    -1 ≤ vec._last_index ∧ vec._last_index ≤ vec._size - 1 :=
  guarded_invariant Op.within_size (fun v => -1 ≤ v._last_index ∧ v._last_index ≤ v._size - 1) M
    (within_size_step M) ops (vector_new element_size) vec
    (by simp [vector_new]) hg hr

theorem last_index_within_size_witness :
    ∃ vec, run 2147483647 (vector_new 4)
        [Op.push_back sure 1, Op.push_back sure 2, Op.resize sure 5, Op.set 3 9, Op.pop_back,
         Op.reserve sure 10, Op.push_back sure 3, Op.clear] = some vec ∧
      -1 ≤ vec._last_index ∧ vec._last_index ≤ vec._size - 1 := by
  cases h : run 2147483647 (vector_new 4)
      [Op.push_back sure 1, Op.push_back sure 2, Op.resize sure 5, Op.set 3 9, Op.pop_back,
       Op.reserve sure 10, Op.push_back sure 3, Op.clear] with
  | none => exact absurd (congrArg Option.isSome h) (by decide)
  | some vec => exact ⟨vec, rfl, last_index_within_size 2147483647 4 _ vec (by decide) h⟩

/-- C3 fails.  On a new vector of four-byte elements, two calls of
`vector_push_back` and `vector_resize(1)` return with size 1 and last index 1. -/
theorem last_index_exceeds_size :
    (run 2147483647 (vector_new 4)
        [Op.push_back sure 1, Op.push_back sure 2, Op.resize sure 1]).map
      (fun vec => (vec._size, vec._last_index)) = some (1, 1) := by
  decide

/-- C4, as the code has it.  Sparse append.  On a vector with
`-1 <= _last_index < _size - 1`, `vector_push_back(v)` returns; `_size` is
then the old `_last_index + 2`, `_last_index` is one further, the capacity is
untouched, and the slot at the new `_last_index` holds the bytes copied from
`v`, so that reading it gives `v` back (as a number: `v` cut to
`_element_size` bytes).  So `vector_resize(5)` and then `vector_push_back(v)`
on a new vector give size 1 with `v` in slot 0, and the indices 1 to 4 are out
of range. -/
theorem vector_push_back_sparse_append (M : Int) (heap : Allocation) (vec : _vector) (value : Nat)
    (hs : vec._last_index < vec._size - 1) (h0 : -1 ≤ vec._last_index) :
    (∃ vec1, vector_push_back M heap vec value = some vec1 ∧
      vec1._size = vec._last_index + 2 ∧ vec1._last_index = vec._last_index + 1 ∧
      vec1._capacity = vec._capacity ∧
      VECTOR_GET vec1 vec1._last_index = some (value_bytes value vec._element_size) ∧
      (VECTOR_GET vec1 vec1._last_index).map le_value =
        some (value % 256 ^ vec._element_size.toNat)) ∧
    (∀ (element_size : Int) (heap1 heap2 : Allocation) (v : Nat),
      heap1.grants (5 * element_size) = true →
      ∃ vec1 vec2, vector_resize heap1 (vector_new element_size) 5 = some vec1 ∧
        vector_push_back M heap2 vec1 v = some vec2 ∧ vector_size vec2 = 1 ∧
        VECTOR_GET vec2 0 = some (value_bytes v element_size) ∧
        ∀ i : Int, 1 ≤ i → i ≤ 4 → vector_get vec2 i = none ∧ VECTOR_GET vec2 i = none) := by
  have hne : vec._last_index ≠ vec._size - 1 := by omega
  refine ⟨?_, ?_⟩
  · refine ⟨_, vector_push_back_sparse M heap vec value hne h0, rfl, rfl, rfl, ?_, ?_⟩
    · rw [VECTOR_GET_some _ _ (by dsimp only; omega) (by dsimp only; omega)]
      dsimp only
      rw [load_memcpy_same]
    · rw [VECTOR_GET_some _ _ (by dsimp only; omega) (by dsimp only; omega)]
      dsimp only
      rw [load_memcpy_same, Option.map_some', le_value_value_bytes]
  · intro element_size heap1 heap2 v hg
    obtain ⟨p, hp, -, -⟩ := vector_resize_some heap1 (vector_new element_size) 5
      (by simpa [vector_new] using hg)
    refine ⟨_, _, hp, vector_push_back_sparse M heap2 _ v (by simp [vector_new])
      (by simp [vector_new]), ?_, ?_, ?_⟩
    · simp [vector_size, vector_new]
    · rw [VECTOR_GET_some _ _ (by simp) (by simp [vector_new])]
      simp only [vector_new]
      norm_num
      rw [load_memcpy_same]
    · intro i h1 h4
      have hn : vector_get
          { _size := (vector_new element_size)._last_index + 2,
            _capacity := max 5 (vector_new element_size)._capacity,
            _element_size := (vector_new element_size)._element_size,
            _last_index := (vector_new element_size)._last_index + 1,
            _data := memcpy p
              (((vector_new element_size)._last_index + 1) * (vector_new element_size)._element_size)
              v (vector_new element_size)._element_size } i = none := by
        rw [vector_get_none_iff]
        right
        simp only [vector_new]
        omega
      refine ⟨hn, ?_⟩
      unfold VECTOR_GET
      rw [hn]
      rfl

theorem vector_push_back_sparse_append_witness :
    (∃ vec1, vector_push_back 2147483647 sure ⟨5, 5, 4, 1, ⟨false, 20, fun _ => 0⟩⟩ 7 = some vec1 ∧
      vec1._size = 1 + 2 ∧ vec1._last_index = 1 + 1 ∧ vec1._capacity = 5 ∧
      VECTOR_GET vec1 vec1._last_index = some (value_bytes 7 4) ∧
      (VECTOR_GET vec1 vec1._last_index).map le_value = some (7 % 256 ^ (4 : Int).toNat)) ∧
    (∀ (element_size : Int) (heap1 heap2 : Allocation) (v : Nat),
      heap1.grants (5 * element_size) = true →
      ∃ vec1 vec2, vector_resize heap1 (vector_new element_size) 5 = some vec1 ∧
        vector_push_back 2147483647 heap2 vec1 v = some vec2 ∧ vector_size vec2 = 1 ∧
        VECTOR_GET vec2 0 = some (value_bytes v element_size) ∧
        ∀ i : Int, 1 ≤ i → i ≤ 4 → vector_get vec2 i = none ∧ VECTOR_GET vec2 i = none) :=
  vector_push_back_sparse_append 2147483647 sure ⟨5, 5, 4, 1, ⟨false, 20, fun _ => 0⟩⟩ 7
    (by decide) (by decide)

/-- C4 fails below `-1`.  On a new vector of four-byte elements,
`vector_resize(5)` and `vector_pop_back()` return with size 4 and
`_last_index` -2, which is below `_size - 1`; `vector_push_back(7)` on that
vector aborts: its else branch sets the size to 0 and calls `vector_set` with
index -1. -/
theorem vector_push_back_sparse_aborts :
    (run 2147483647 (vector_new 4) [Op.resize sure 5, Op.pop_back]).map
      (fun vec => (vec._size, vec._last_index)) = some (4, -2) ∧
    ((run 2147483647 (vector_new 4) [Op.resize sure 5, Op.pop_back]).bind
      (fun vec => vector_push_back 2147483647 sure vec 7)).map vector_size = none ∧
    (run 2147483647 (vector_new 4) [Op.resize sure 5, Op.pop_back, Op.push_back sure 7]).map
      vector_size = none :=
  ⟨by decide, by decide, by decide⟩

/-- C5, as the code has it.  On a vector with
`-1 <= _last_index <= _size - 1` whose allocation request, if the push has to
grow, is granted, `vector_push_back(v)` and then `vector_pop_back()` both
return; `_last_index` is back at its value before the push and `_size` is the
old `_last_index + 1`, which on a dense vector is the old `_size`. -/
theorem vector_push_back_pop_back (M : Int) (heap : Allocation) (vec : _vector) (value : Nat)
    (h0 : -1 ≤ vec._last_index) (_h1 : vec._last_index ≤ vec._size - 1)
    (hg : vec._last_index = vec._size - 1 → vec._size = vec._capacity →
      heap.grants (vector_calculate_growth M vec (vec._size + 1) * vec._element_size) = true) :
    ∃ vec1 vec2, vector_push_back M heap vec value = some vec1 ∧
      vector_pop_back vec1 = some vec2 ∧
      vec2._last_index = vec._last_index ∧ vec2._size = vec._last_index + 1 ∧
      (vec._last_index = vec._size - 1 → vec2._size = vec._size) := by
  have hpop : ∀ vec1 : _vector, vec1._size = vec._last_index + 2 →
      vec1._last_index = vec._last_index + 1 →
      ∃ vec2, vector_pop_back vec1 = some vec2 ∧
        vec2._last_index = vec._last_index ∧ vec2._size = vec._last_index + 1 ∧
        (vec._last_index = vec._size - 1 → vec2._size = vec._size) := by
    intro vec1 hs hl
    unfold vector_pop_back
    rw [if_neg (by omega)]
    refine ⟨_, rfl, ?_, ?_, ?_⟩
    · dsimp only; omega
    · dsimp only; omega
    · intro hd; dsimp only; omega
  have hpush : ∃ vec1, vector_push_back M heap vec value = some vec1 ∧
      vec1._size = vec._last_index + 2 ∧ vec1._last_index = vec._last_index + 1 := by
    by_cases hd : vec._last_index = vec._size - 1
    · by_cases hc : vec._size = vec._capacity
      · obtain ⟨p, hp, -⟩ := vector_push_back_grow M heap vec value hd (by omega) hc (hg hd hc)
        exact ⟨_, hp, by show vec._size + 1 = vec._last_index + 2; omega, rfl⟩
      · exact ⟨_, vector_push_back_dense M heap vec value hd (by omega) hc,
          by show vec._size + 1 = vec._last_index + 2; omega, rfl⟩
    · exact ⟨_, vector_push_back_sparse M heap vec value hd h0, rfl, rfl⟩
  obtain ⟨vec1, h1, hs, hl⟩ := hpush
  obtain ⟨vec2, h2⟩ := hpop vec1 hs hl
  exact ⟨vec1, vec2, h1, h2⟩

theorem vector_push_back_pop_back_witness :
    ∃ vec1 vec2, vector_push_back 2147483647 sure ⟨4, 4, 4, 3, ⟨false, 16, fun _ => 0⟩⟩ 7 = some vec1 ∧
      vector_pop_back vec1 = some vec2 ∧
      vec2._last_index = 3 ∧ vec2._size = 3 + 1 ∧
      ((3 : Int) = 4 - 1 → vec2._size = 4) :=
  vector_push_back_pop_back 2147483647 sure ⟨4, 4, 4, 3, ⟨false, 16, fun _ => 0⟩⟩ 7
    (by decide) (by decide) (fun _ _ => by decide)

/-- C5 fails twice.  After `vector_resize(5)` on a new vector of four-byte
elements the size is 5; `vector_push_back(7)` and `vector_pop_back()` leave it
at 0.  And on a new vector, `vector_push_back(0x01010101)` and
`vector_pop_back()` leave the bytes 0, 1, 1, 1 in the popped slot: only its
first byte is zero. -/
theorem vector_push_back_pop_back_not_restored :
    (run 2147483647 (vector_new 4) [Op.resize sure 5]).map vector_size = some 5 ∧
    (run 2147483647 (vector_new 4) [Op.resize sure 5, Op.push_back sure 7, Op.pop_back]).map
      vector_size = some 0 ∧
    (run 2147483647 (vector_new 4) [Op.push_back sure 16843009, Op.pop_back]).map
      (fun vec => load vec._data (0 * vec._element_size) vec._element_size) = some [0, 1, 1, 1] := by
  decide

/-- C6, as the code has it.  A dense vector with `_size == _capacity`,
`0 <= _size` and `_size` below `VECTOR_MAX_SIZE`, whose allocation request is
granted: `vector_push_back` returns, the new capacity is
`vector_calculate_growth(vec, _size + 1)` of the vector before the call, it is
at least the requested `_size + 1`, and at least the new `_size`. -/
theorem vector_push_back_growth (M : Int) (heap : Allocation) (vec : _vector) (value : Nat)
    (hd : vec._last_index = vec._size - 1) (hc : vec._size = vec._capacity)
    (h0 : 0 ≤ vec._size) (hM : vec._size < M)
    (hg : heap.grants (vector_calculate_growth M vec (vec._size + 1) * vec._element_size) = true) :
    ∃ vec1, vector_push_back M heap vec value = some vec1 ∧
      vec1._capacity = vector_calculate_growth M vec (vec._size + 1) ∧
      vec1._capacity ≥ vec._size + 1 ∧ vec1._capacity ≥ vec1._size := by
  obtain ⟨p, hp, -⟩ := vector_push_back_grow M heap vec value hd h0 hc hg
  have hge := vector_calculate_growth_ge M vec (vec._size + 1) (by omega)
  exact ⟨_, hp, rfl, hge, hge⟩

theorem vector_push_back_growth_witness :
    ∃ vec1, vector_push_back 2147483647 sure ⟨4, 4, 4, 3, ⟨false, 16, fun _ => 0⟩⟩ 7 = some vec1 ∧
      vec1._capacity = vector_calculate_growth 2147483647 ⟨4, 4, 4, 3, ⟨false, 16, fun _ => 0⟩⟩ (4 + 1) ∧
      vec1._capacity ≥ 4 + 1 ∧ vec1._capacity ≥ vec1._size :=
  vector_push_back_growth 2147483647 sure ⟨4, 4, 4, 3, ⟨false, 16, fun _ => 0⟩⟩ 7
    (by decide) (by decide) (by decide) (by decide) (by decide)

/-- C6 fails at the maximum.  A dense vector of one-byte elements with
`_size == _capacity == VECTOR_MAX_SIZE` (here 2147483646): the growth policy
answers `VECTOR_MAX_SIZE` for the requested 2147483647, and after
`vector_push_back` the capacity is still 2147483646, below the requested size
and below the new `_size`. -/
theorem vector_push_back_growth_at_max :
    vector_calculate_growth 2147483646
      ⟨2147483646, 2147483646, 1, 2147483645, ⟨false, 2147483646, fun _ => 0⟩⟩ (2147483646 + 1)
      = 2147483646 ∧
    (vector_push_back 2147483646 sure
      ⟨2147483646, 2147483646, 1, 2147483645, ⟨false, 2147483646, fun _ => 0⟩⟩ 0).map
      (fun vec1 => (vec1._size, vec1._capacity)) = some (2147483647, 2147483646) := by
  decide

/-- C7.  `vector_calculate_growth` is the policy of the description: the
maximum when the capacity exceeds the maximum less half the capacity, else the
larger of one and a half times the capacity and the requested size.  On a
capacity that is not negative the halving is the same whichever way integer
division rounds.  It is a function of the vector it reads: nothing of the
vector is stored to. -/
theorem vector_calculate_growth_eq_policy (VECTOR_MAX_SIZE : Int) (vec : _vector) (new_size : Int) :
    vector_calculate_growth VECTOR_MAX_SIZE vec new_size =
      growth_policy VECTOR_MAX_SIZE (vector_capacity vec) new_size ∧
    (0 ≤ vector_capacity vec →
      vector_calculate_growth VECTOR_MAX_SIZE vec new_size =
        if vector_capacity vec > VECTOR_MAX_SIZE - vector_capacity vec / 2 then VECTOR_MAX_SIZE
        else max (vector_capacity vec + vector_capacity vec / 2) new_size) := by
  have key : vector_calculate_growth VECTOR_MAX_SIZE vec new_size =
      growth_policy VECTOR_MAX_SIZE (vector_capacity vec) new_size := by
    unfold vector_calculate_growth growth_policy vector_capacity
    by_cases h : vec._capacity > VECTOR_MAX_SIZE - vec._capacity.tdiv 2
    · simp [h]
    · simp only [h, if_false]
      by_cases h2 : vec._capacity + vec._capacity.tdiv 2 < new_size
      · simp [h2, max_eq_right (le_of_lt h2)]
      · simp [h2, max_eq_left (not_lt.mp h2)]
  refine ⟨key, ?_⟩
  intro h0
  rw [key]
  unfold growth_policy
  rw [Int.tdiv_eq_ediv h0 (by decide)]

/-- C8.  `vector_resize(k)` aborts exactly when the allocator refuses the
request.  Whenever it returns: for `k` above the capacity both `_capacity` and
`_size` are `k` afterwards, and for `k` within the capacity `_size` is `k` and
`_capacity` is untouched. -/
theorem vector_resize_spec (heap : Allocation) (vec : _vector) (k : Int) :
    (vector_resize heap vec k = none ↔
      heap.grants (max k vec._capacity * vec._element_size) = false) ∧
    ∀ vec1, vector_resize heap vec k = some vec1 →
      (k > vec._capacity → vec1._capacity = k ∧ vec1._size = k) ∧
      (k ≤ vec._capacity → vec1._size = k ∧ vec1._capacity = vec._capacity) := by
  constructor
  · constructor
    · intro hn
      cases hg : heap.grants (max k vec._capacity * vec._element_size) with
      | false => rfl
      | true =>
        obtain ⟨p, hp, -⟩ := vector_resize_some heap vec k hg
        rw [hp] at hn
        exact absurd hn (by simp)
    · exact vector_resize_none heap vec k
  · intro vec1 h
    obtain ⟨h1, h2, -, -⟩ := vector_resize_fields heap vec vec1 k h
    constructor
    · intro hk
      rw [h2, h1]
      exact ⟨max_eq_left (le_of_lt hk), rfl⟩
    · intro hk
      rw [h2, h1]
      exact ⟨rfl, max_eq_right hk⟩

theorem vector_resize_spec_witness :
    ∃ vec1, vector_resize sure (vector_new 4) 5 = some vec1 ∧
      vec1._capacity = 5 ∧ vec1._size = 5 := by
  cases h : vector_resize sure (vector_new 4) 5 with
  | none =>
    exact absurd ((vector_resize_spec sure (vector_new 4) 5).1.1 h) (by decide)
  | some vec1 =>
    exact ⟨vec1, rfl, ((vector_resize_spec sure (vector_new 4) 5).2 vec1 h).1 (by decide)⟩

/-- C9.  On every vector with `_size > 0`, `vector_clear` returns, with
`_size == 0`, `_last_index == -1` and the capacity it had before.  The loop
has stopped by then: a longer run of it ends in the same state. -/
theorem vector_clear_spec (vec : _vector) (h : vec._size > 0) :
    ∃ vec1, vector_clear vec = some vec1 ∧ vec1._size = 0 ∧ vec1._last_index = -1 ∧
      vec1._capacity = vec._capacity ∧
      ∀ fuel, vec._size.toNat ≤ fuel →
        vector_clear_loop fuel vec = vector_clear_loop vec._size.toNat vec := by
  obtain ⟨vec1, h1, h2, h3, -⟩ := vector_clear_loop_spec vec._size.toNat vec (le_refl _)
  refine ⟨{ vec1 with _last_index := -1 }, ?_, ?_, rfl, h3, ?_⟩
  · unfold vector_clear
    rw [h1]
  · show vec1._size = 0
    rw [h2]
    exact min_eq_right (by omega)
  · intro fuel hf
    exact vector_clear_loop_fuel vec fuel hf

theorem vector_clear_spec_witness :
    ∃ vec1, vector_clear ⟨3, 4, 4, 2, NULL⟩ = some vec1 ∧ vec1._size = 0 ∧
      vec1._last_index = -1 ∧ vec1._capacity = (⟨3, 4, 4, 2, NULL⟩ : _vector)._capacity ∧
      ∀ fuel, (⟨3, 4, 4, 2, NULL⟩ : _vector)._size.toNat ≤ fuel →
        vector_clear_loop fuel ⟨3, 4, 4, 2, NULL⟩ =
          vector_clear_loop (⟨3, 4, 4, 2, NULL⟩ : _vector)._size.toNat ⟨3, 4, 4, 2, NULL⟩ :=
  vector_clear_spec ⟨3, 4, 4, 2, NULL⟩ (by decide)

/-- C10.  `vector_get` and `vector_set` take the out-of-range failure path
exactly when `index < 0` or `index >= _size`; so `vector_get(-1)` and
`vector_get(_size)` fail on every vector and every index inside
`[0, _size)` is served by both. -/
theorem vector_get_set_bounds (vec : _vector) (index : Int) (value : Nat) :
    (vector_get vec index = none ↔ (index < 0 ∨ index ≥ vec._size)) ∧
    (vector_set vec index value = none ↔ (index < 0 ∨ index ≥ vec._size)) ∧
    vector_get vec (-1) = none ∧
    vector_get vec vec._size = none ∧
    ((0 ≤ index ∧ index < vec._size) ↔
      ((vector_get vec index).isSome = true ∧ (vector_set vec index value).isSome = true)) := by
  refine ⟨vector_get_none_iff vec index, vector_set_none_iff vec index value, ?_, ?_, ?_⟩
  · exact (vector_get_none_iff vec (-1)).2 (Or.inl (by decide))
  · exact (vector_get_none_iff vec vec._size).2 (Or.inr (le_refl _))
  · have hg := vector_get_none_iff vec index
    have hs := vector_set_none_iff vec index value
    constructor
    · intro h
      have hb : ¬ (index < 0 ∨ index ≥ vec._size) := by omega
      constructor
      · cases hx : vector_get vec index with
        | none => exact absurd (hg.1 hx) hb
        | some _ => rfl
      · cases hx : vector_set vec index value with
        | none => exact absurd (hs.1 hx) hb
        | some _ => rfl
    · intro h
      by_contra hc
      have hb : index < 0 ∨ index ≥ vec._size := by omega
      rw [hg.2 hb] at h
      simp at h

/-- C11.  `vector_pop_back` aborts exactly when `_size == 0`.  On every other
vector it returns, with `_size` and `_last_index` each one less and
`_capacity` and `_element_size` as they were. -/
theorem vector_pop_back_spec (vec : _vector) :
    (vector_pop_back vec = none ↔ vec._size = 0) ∧
    (vec._size ≠ 0 → ∃ vec1, vector_pop_back vec = some vec1 ∧
      vec1._size = vec._size - 1 ∧ vec1._last_index = vec._last_index - 1 ∧
      vec1._capacity = vec._capacity ∧ vec1._element_size = vec._element_size) := by
  constructor
  · unfold vector_pop_back
    by_cases hs : vec._size = 0
    · simp [hs]
    · simp [hs]
  · intro hs
    unfold vector_pop_back
    rw [if_neg hs]
    exact ⟨_, rfl, rfl, rfl, rfl, rfl⟩

theorem vector_pop_back_spec_witness :
    ∃ vec1, vector_pop_back ⟨3, 4, 4, 2, ⟨false, 16, fun _ => 7⟩⟩ = some vec1 ∧
      vec1._size = 3 - 1 ∧ vec1._last_index = 2 - 1 ∧
      vec1._capacity = 4 ∧ vec1._element_size = 4 :=
  (vector_pop_back_spec ⟨3, 4, 4, 2, ⟨false, 16, fun _ => 7⟩⟩).2 (by decide)

/-- C12.  For an index `i` with `0 <= i < _size`, `vector_set(i, value)`
returns; slot `i` then holds the `_element_size` bytes copied from `value`, so
`vector_get(i)` reads them back (as a number: `value` cut to `_element_size`
bytes); every other slot reads as before; `_size`, `_capacity` and
`_element_size` are unchanged. -/
theorem vector_set_spec (vec : _vector) (i : Int) (value : Nat)
    (h0 : 0 ≤ i) (h1 : i < vec._size) :
    ∃ vec1, vector_set vec i value = some vec1 ∧
      VECTOR_GET vec1 i = some (value_bytes value vec._element_size) ∧
      (VECTOR_GET vec1 i).map le_value = some (value % 256 ^ vec._element_size.toNat) ∧
      (∀ j : Int, 0 ≤ j → j < vec._size → j ≠ i → VECTOR_GET vec1 j = VECTOR_GET vec j) ∧
      vec1._size = vec._size ∧ vec1._capacity = vec._capacity ∧
      vec1._element_size = vec._element_size := by
  refine ⟨_, vector_set_some vec i value h0 h1, ?_, ?_, ?_, rfl, rfl, rfl⟩
  · rw [VECTOR_GET_some _ _ h0 (by dsimp only; omega)]
    dsimp only
    rw [load_memcpy_same]
  · rw [VECTOR_GET_some _ _ h0 (by dsimp only; omega)]
    dsimp only
    rw [load_memcpy_same, Option.map_some', le_value_value_bytes]
  · intro j hj0 hj1 hji
    rw [VECTOR_GET_some _ _ hj0 (by dsimp only; omega), VECTOR_GET_some vec j hj0 hj1]
    dsimp only
    by_cases he : 0 ≤ vec._element_size
    · rcases lt_or_gt_of_ne hji with hlt | hgt
      · rw [load_memcpy_other _ _ _ _ _ _
          (Or.inl (slot_end_le vec._element_size j i he (by omega)))]
      · rw [load_memcpy_other _ _ _ _ _ _
          (Or.inr (slot_end_le vec._element_size i j he (by omega)))]
    · have hz : vec._element_size.toNat = 0 := by omega
      unfold load
      rw [hz]
      rfl

theorem vector_set_spec_witness :
    ∃ vec1, vector_set ⟨3, 4, 4, 2, ⟨false, 16, fun _ => 7⟩⟩ 1 258 = some vec1 ∧
      VECTOR_GET vec1 1 = some (value_bytes 258 4) ∧
      (VECTOR_GET vec1 1).map le_value = some (258 % 256 ^ (4 : Int).toNat) ∧
      (∀ j : Int, 0 ≤ j → j < 3 → j ≠ 1 →
        VECTOR_GET vec1 j = VECTOR_GET ⟨3, 4, 4, 2, ⟨false, 16, fun _ => 7⟩⟩ j) ∧
      vec1._size = 3 ∧ vec1._capacity = 4 ∧ vec1._element_size = 4 :=
  vector_set_spec ⟨3, 4, 4, 2, ⟨false, 16, fun _ => 7⟩⟩ 1 258 (by decide) (by decide)

/-- C13.  For an index `i` with `0 <= i < _size`, `vector_set(i, value)`
leaves `_last_index` at the larger of its old value and `i`: at `i` when `i`
is above it, unchanged otherwise. -/
theorem vector_set_last_index (vec : _vector) (i : Int) (value : Nat)
    (h0 : 0 ≤ i) (h1 : i < vec._size) :
    ∃ vec1, vector_set vec i value = some vec1 ∧
      vec1._last_index = max vec._last_index i ∧
      (i > vec._last_index → vec1._last_index = i) ∧
      (i ≤ vec._last_index → vec1._last_index = vec._last_index) := by
  refine ⟨_, vector_set_some vec i value h0 h1, rfl, ?_, ?_⟩
  · intro h
    exact max_eq_right (le_of_lt h)
  · intro h
    exact max_eq_left h

theorem vector_set_last_index_witness :
    ∃ vec1, vector_set ⟨5, 5, 4, 1, ⟨false, 20, fun _ => 7⟩⟩ 3 9 = some vec1 ∧
      vec1._last_index = max 1 3 ∧
      ((3 : Int) > 1 → vec1._last_index = 3) ∧
      ((3 : Int) ≤ 1 → vec1._last_index = 1) :=
  vector_set_last_index ⟨5, 5, 4, 1, ⟨false, 20, fun _ => 7⟩⟩ 3 9 (by decide) (by decide)

/-- C14.  On a vector that owns its buffer, as every vector the operations
make from `vector_new` does, a `vector_reserve(new_capacity)` whose allocation
is granted returns with `_capacity == new_capacity`, with `_size`,
`_last_index` and `_element_size` unchanged, and with every slot below the
smaller of the old and the new capacity holding the bytes it held. -/
theorem vector_reserve_spec (heap : Allocation) (vec : _vector) (new_capacity : Int)
    (hb : owns_buffer vec)
    (hg : heap.grants (new_capacity * vec._element_size) = true) :
    (∃ vec1, vector_reserve heap vec new_capacity = some vec1 ∧
      vec1._capacity = new_capacity ∧ vec1._size = vec._size ∧
      vec1._last_index = vec._last_index ∧ vec1._element_size = vec._element_size ∧
      ∀ j : Int, 0 ≤ j → j < min vec._capacity new_capacity →
        load vec1._data (j * vec._element_size) vec._element_size =
          load vec._data (j * vec._element_size) vec._element_size) ∧
    (∀ (M element_size : Int) (ops : List Op) (vec2 : _vector),
      run M (vector_new element_size) ops = some vec2 → owns_buffer vec2) := by
  constructor
  · obtain ⟨p, hp, -, -, hm⟩ := vector_reserve_some heap vec new_capacity hg
    refine ⟨_, hp, rfl, rfl, rfl, rfl, ?_⟩
    intro j hj0 hj1
    dsimp only
    by_cases he : 0 ≤ vec._element_size
    · obtain ⟨ha, hn⟩ := hb
      have hnull : vec._data.null = false := by
        cases hx : vec._data.null with
        | false => rfl
        | true =>
          have := hn hx
          omega
      have h1 := slot_end_le vec._element_size j vec._capacity he (by omega)
      have h2 := slot_end_le vec._element_size j new_capacity he (by omega)
      have h3 : 0 ≤ j * vec._element_size := mul_nonneg hj0 he
      apply load_congr
      intro o ho1 ho2
      exact hm hnull o (by omega) (by rw [ha]; omega) (by omega)
    · have hz : vec._element_size.toNat = 0 := by omega
      unfold load
      rw [hz]
      rfl
  · intro M element_size ops vec2 hr
    exact run_owns_buffer M ops _ vec2 (owns_buffer_vector_new element_size) hr

theorem vector_reserve_spec_witness :
    ∃ vec1, vector_reserve sure ⟨3, 4, 4, 2, ⟨false, 16, fun _ => 7⟩⟩ 2 = some vec1 ∧
      vec1._capacity = 2 ∧ vec1._size = 3 ∧
      vec1._last_index = 2 ∧ vec1._element_size = 4 ∧
      ∀ j : Int, 0 ≤ j → j < min 4 2 →
        load vec1._data (j * 4) 4 = load (⟨false, 16, fun _ => 7⟩ : byte_ptr) (j * 4) 4 :=
  (vector_reserve_spec sure ⟨3, 4, 4, 2, ⟨false, 16, fun _ => 7⟩⟩ 2
    ⟨by decide, by decide⟩ (by decide)).1

/-- C15, as the code has it.  Each of `vector_set`, `vector_pop_back`,
`vector_clear` and `vector_resize` (to any size), a `vector_push_back` that
does not have to grow from a capacity above `VECTOR_MAX_SIZE`, and a
`vector_reserve` that asks for no less than the capacity, when it returns,
ends with `_capacity` at or above its value before the call. -/
theorem capacity_kept (M : Int) (vec vec1 : _vector) (op : Op)
    (hg : Op.keeps_capacity M vec op) (h : op.apply M vec = some vec1) :
    vec1._capacity ≥ vec._capacity := by
  cases op with
  | set index value =>
    obtain ⟨-, -, -, s4, -⟩ := vector_set_fields vec vec1 index value h
    omega
  | reserve heap n =>
    obtain ⟨-, r2, -⟩ := vector_reserve_fields heap vec vec1 n h
    have : vec._capacity ≤ n := hg
    omega
  | resize heap k =>
    obtain ⟨-, r2, -⟩ := vector_resize_fields heap vec vec1 k h
    rw [r2]
    exact le_max_right _ _
  | push_back heap value =>
    obtain ⟨p1, -, -, -, p5⟩ := vector_push_back_fields M heap vec vec1 value h
    rcases p5 with ⟨hd, hc, hcap⟩ | ⟨-, hcap⟩
    · have hM : vec._capacity ≤ M := hg hd hc
      rw [hcap]
      exact vector_calculate_growth_ge_capacity M vec _ (by omega) hM
    · omega
  | pop_back =>
    obtain ⟨-, -, -, q4, -⟩ := vector_pop_back_fields vec vec1 h
    omega
  | clear =>
    obtain ⟨-, -, c3, -⟩ := vector_clear_fields vec vec1 h
    omega

theorem capacity_kept_witness :
    ∃ vec1, Op.apply 2147483647 ⟨4, 4, 4, 3, ⟨false, 16, fun _ => 7⟩⟩ (Op.push_back sure 9) =
        some vec1 ∧ vec1._capacity ≥ 4 := by
  cases h : Op.apply 2147483647 ⟨4, 4, 4, 3, ⟨false, 16, fun _ => 7⟩⟩ (Op.push_back sure 9) with
  | none => exact absurd (congrArg Option.isSome h) (by decide)
  | some vec1 =>
    exact ⟨vec1, rfl, capacity_kept 2147483647 ⟨4, 4, 4, 3, ⟨false, 16, fun _ => 7⟩⟩ vec1
      (Op.push_back sure 9) (by decide) h⟩

/-- C15 fails.  On a new vector of four-byte elements `vector_reserve(10)`
leaves capacity 10, and `vector_reserve(5)` after it leaves capacity 5. -/
theorem capacity_lowered_by_reserve :
    (run 2147483647 (vector_new 4) [Op.reserve sure 10]).map vector_capacity = some 10 ∧
    (run 2147483647 (vector_new 4) [Op.reserve sure 10, Op.reserve sure 5]).map
      vector_capacity = some 5 := by
  decide

/-- C16.  For every `VECTOR_MAX_SIZE`, element size and answers of the
allocator, `N` calls of `vector_push_back` on a new vector make at most
`7 * (log2 N + 1)` calls of `vector_reserve` (`log2` rounded down), and those
reallocations carry over at most `5 * N` elements in all. -/
theorem push_back_amortized (M element_size : Int) (ps : List (Allocation × Nat)) :
    reserve_calls M (vector_new element_size) ps ≤ 7 * (Nat.log 2 ps.length + 1) ∧
    copied_elements M (vector_new element_size) ps ≤ 5 * ps.length := by
  have hphase : growth_phase M (vector_new element_size) 0 0 := by
    unfold growth_phase
    left
    simp [vector_new]
  obtain ⟨h1, h2⟩ := amortized_run M ps (vector_new element_size) 0 0 rfl (le_refl _) hphase
  have hsz : (vector_new element_size)._size = 0 := rfl
  rw [hsz, zero_add, zero_add] at h1
  rw [hsz, zero_add, zero_add] at h2
  refine ⟨?_, h2⟩
  have hnat : 2 ^ reserve_calls M (vector_new element_size) ps ≤ 32 * ps.length ^ 3 + 8 := by
    exact_mod_cast h1
  have hlt : ps.length < 2 ^ (Nat.log 2 ps.length + 1) :=
    Nat.lt_pow_succ_log_self (by norm_num) ps.length
  have hcube : ps.length ^ 3 < (2 ^ (Nat.log 2 ps.length + 1)) ^ 3 :=
    Nat.pow_lt_pow_left hlt (by norm_num)
  have hexp : (2 ^ (Nat.log 2 ps.length + 1)) ^ 3 * 32 = 2 ^ (3 * Nat.log 2 ps.length + 8) := by
    rw [← pow_mul, show (32 : Nat) = 2 ^ 5 from rfl, ← pow_add]
    congr 1
    ring
  have hpow : 2 ^ reserve_calls M (vector_new element_size) ps <
      2 ^ (3 * Nat.log 2 ps.length + 8) := by
    rw [← hexp]
    omega
  have hcalls : reserve_calls M (vector_new element_size) ps < 3 * Nat.log 2 ps.length + 8 :=
    (Nat.pow_lt_pow_iff_right (by norm_num)).1 hpow
  omega

theorem push_back_amortized_witness :
    reserve_calls 2147483647 (vector_new 4)
        [(sure, 1), (sure, 2), (sure, 3), (sure, 4), (sure, 5)] ≤
      7 * (Nat.log 2 [(sure, 1), (sure, 2), (sure, 3), (sure, 4), (sure, 5)].length + 1) ∧
    copied_elements 2147483647 (vector_new 4)
        [(sure, 1), (sure, 2), (sure, 3), (sure, 4), (sure, 5)] ≤
      5 * [(sure, 1), (sure, 2), (sure, 3), (sure, 4), (sure, 5)].length :=
  push_back_amortized 2147483647 4 [(sure, 1), (sure, 2), (sure, 3), (sure, 4), (sure, 5)]

/-- C17 fails.  On a new vector of four-byte elements, `vector_resize(5)` and
`vector_pop_back()` leave `_last_index` at -2; `vector_clear()` then sets it
to -1, above the value it had before the call. -/
theorem last_index_raised_by_clear :
    (run 2147483647 (vector_new 4) [Op.resize sure 5, Op.pop_back]).map
      (fun vec => vec._last_index) = some (-2) ∧
    (run 2147483647 (vector_new 4) [Op.resize sure 5, Op.pop_back, Op.clear]).map
      (fun vec => vec._last_index) = some (-1) := by
  decide

/-- C18, as the code has it.  On every vector with `_size >= 0`, `vector_clear`
and popping until `_size == 0` followed by `_last_index = -1` both return, and
end with the same `_size` (zero), `_capacity`, `_last_index` (-1) and
`_element_size`. -/
theorem vector_clear_by_popping_fields (vec : _vector) (h0 : 0 ≤ vec._size) :
    ∃ vec1 vec2, vector_clear vec = some vec1 ∧ clear_by_popping vec = some vec2 ∧
      vec1._size = vec2._size ∧ vec1._capacity = vec2._capacity ∧
      vec1._last_index = vec2._last_index ∧ vec1._element_size = vec2._element_size ∧
      vec1._size = 0 ∧ vec1._last_index = -1 := by
  obtain ⟨c1, hc1, hc2, hc3, hc4⟩ := vector_clear_loop_spec vec._size.toNat vec (le_refl _)
  obtain ⟨p1, hp1, hp2, hp3, hp4⟩ := pop_back_loop_spec vec._size.toNat vec h0 (le_refl _)
  refine ⟨{ c1 with _last_index := -1 }, { p1 with _last_index := -1 }, ?_, ?_, ?_, ?_, rfl, ?_,
    ?_, rfl⟩
  · unfold vector_clear
    rw [hc1]
  · unfold clear_by_popping
    rw [hp1]
  · show c1._size = p1._size
    rw [hc2, hp2]
    exact min_eq_right h0
  · show c1._capacity = p1._capacity
    rw [hc3, hp3]
  · show c1._element_size = p1._element_size
    rw [hc4, hp4]
  · show c1._size = 0
    rw [hc2]
    exact min_eq_right h0

theorem vector_clear_by_popping_fields_witness :
    ∃ vec1 vec2, vector_clear ⟨3, 4, 4, 2, ⟨false, 16, fun _ => 7⟩⟩ = some vec1 ∧
      clear_by_popping ⟨3, 4, 4, 2, ⟨false, 16, fun _ => 7⟩⟩ = some vec2 ∧
      vec1._size = vec2._size ∧ vec1._capacity = vec2._capacity ∧
      vec1._last_index = vec2._last_index ∧ vec1._element_size = vec2._element_size ∧
      vec1._size = 0 ∧ vec1._last_index = -1 :=
  vector_clear_by_popping_fields ⟨3, 4, 4, 2, ⟨false, 16, fun _ => 7⟩⟩ (by decide)

/-- C18 fails on the bytes.  A new vector of four-byte elements with
`0x01010101` pushed: `vector_clear` leaves slot 0 all zero, popping leaves
00 01 01 01.  And after `vector_resize(2)` alone (nothing written, fresh bytes
read 0xAA): `vector_clear` zeroes slot 0, popping leaves it as it was. -/
theorem vector_clear_differs_from_popping :
    ((run 2147483647 (vector_new 4) [Op.push_back sure 16843009]).bind vector_clear).map
      (fun vec => load vec._data 0 4) = some [0, 0, 0, 0] ∧
    ((run 2147483647 (vector_new 4) [Op.push_back sure 16843009]).bind clear_by_popping).map
      (fun vec => load vec._data 0 4) = some [0, 1, 1, 1] ∧
    ((run 2147483647 (vector_new 4) [Op.resize sure 2]).bind vector_clear).map
      (fun vec => load vec._data 0 4) = some [0, 0, 0, 0] ∧
    ((run 2147483647 (vector_new 4) [Op.resize sure 2]).bind clear_by_popping).map
      (fun vec => load vec._data 0 4) = some [170, 170, 170, 170] :=
  ⟨by decide, by decide, by decide, by decide⟩

/-- C19.  With the capacity `c` and the requested size `r` both in
`[0, VECTOR_MAX_SIZE]`, `vector_calculate_growth` returns `g` with
`r <= g <= VECTOR_MAX_SIZE` and `g >= c`.  The test it starts with subtracts
within `[0, VECTOR_MAX_SIZE]`, and the sum `c + c / 2` is computed only past
that test, where it lies in `[0, VECTOR_MAX_SIZE]`. -/
theorem vector_calculate_growth_in_range (M : Int) (vec : _vector) (r : Int)
    (hc0 : 0 ≤ vec._capacity) (hcM : vec._capacity ≤ M) (hr0 : 0 ≤ r) (hrM : r ≤ M) :
    r ≤ vector_calculate_growth M vec r ∧ vector_calculate_growth M vec r ≤ M ∧
    vector_calculate_growth M vec r ≥ vec._capacity ∧
    (0 ≤ M - vec._capacity.tdiv 2 ∧ M - vec._capacity.tdiv 2 ≤ M) ∧
    (vector_calculate_growth M vec r =
      match geometric_sum M vec with
      | none => M
      | some s => if s < r then r else s) ∧
    (∀ s, geometric_sum M vec = some s → 0 ≤ s ∧ s ≤ M) := by
  have h2 : vec._capacity.tdiv 2 = vec._capacity / 2 := Int.tdiv_eq_ediv hc0 (by decide)
  refine ⟨vector_calculate_growth_ge M vec r hrM, vector_calculate_growth_le M vec r hrM,
    vector_calculate_growth_ge_capacity M vec r hc0 hcM, ?_, ?_, ?_⟩
  · rw [h2]
    omega
  · unfold vector_calculate_growth geometric_sum
    dsimp only
    by_cases hx : vec._capacity > M - vec._capacity.tdiv 2
    · rw [if_pos hx, if_pos hx]
    · rw [if_neg hx, if_neg hx]
  · intro s hs
    unfold geometric_sum at hs
    dsimp only at hs
    rw [h2] at hs
    by_cases hx : vec._capacity > M - vec._capacity / 2
    · rw [if_pos hx] at hs
      exact absurd hs (by simp)
    · rw [if_neg hx] at hs
      cases hs
      omega

theorem vector_calculate_growth_in_range_witness :
    (5 : Int) ≤ vector_calculate_growth 100 ⟨4, 4, 4, 3, NULL⟩ 5 ∧
    vector_calculate_growth 100 ⟨4, 4, 4, 3, NULL⟩ 5 ≤ 100 ∧
    vector_calculate_growth 100 ⟨4, 4, 4, 3, NULL⟩ 5 ≥ 4 ∧
    (0 ≤ 100 - (4 : Int).tdiv 2 ∧ 100 - (4 : Int).tdiv 2 ≤ 100) ∧
    (vector_calculate_growth 100 ⟨4, 4, 4, 3, NULL⟩ 5 =
      match geometric_sum 100 ⟨4, 4, 4, 3, NULL⟩ with
      | none => 100
      | some s => if s < 5 then 5 else s) ∧
    (∀ s, geometric_sum 100 ⟨4, 4, 4, 3, NULL⟩ = some s → 0 ≤ s ∧ s ≤ 100) :=
  vector_calculate_growth_in_range 100 ⟨4, 4, 4, 3, NULL⟩ 5
    (by decide) (by decide) (by decide) (by decide)

/-- C20 fails.  Bytes `fresh` from the allocator read 0xAA, 170.  On a new
vector of four-byte elements, after `vector_resize(5)` the buffer has 20 bytes,
the size is 5 and `_last_index` is -1; `vector_pop_back()` then stores its zero
at offset -4, in front of the buffer.  And after four calls of
`vector_push_back` and `vector_resize(2)` the buffer has 16 bytes and capacity
4; one more `vector_push_back(9)` makes the size 5 and stores at offset 16,
behind the buffer. -/
theorem store_outside_buffer :
    (run 2147483647 (vector_new 4) [Op.resize sure 5]).map
      (fun vec => (vec._size, vec._last_index, vec._last_index * vec._element_size,
        vec._data.alloc, vec._data.mem (-4))) =
      some ((5 : Int), (-1 : Int), (-4 : Int), (20 : Int), (170 : Nat)) ∧
    (run 2147483647 (vector_new 4) [Op.resize sure 5, Op.pop_back]).map
      (fun vec => vec._data.mem (-4)) = some 0 ∧
    (run 2147483647 (vector_new 4)
      [Op.push_back sure 1, Op.push_back sure 2, Op.push_back sure 3, Op.push_back sure 4,
       Op.resize sure 2]).map
      (fun vec => (vec._size, vec._capacity, vec._last_index, vec._data.alloc,
        vec._data.mem 16)) =
      some ((2 : Int), (4 : Int), (3 : Int), (16 : Int), (170 : Nat)) ∧
    (run 2147483647 (vector_new 4)
      [Op.push_back sure 1, Op.push_back sure 2, Op.push_back sure 3, Op.push_back sure 4,
       Op.resize sure 2, Op.push_back sure 9]).map
      (fun vec => (vec._size, vec._capacity, vec._last_index, vec._data.alloc,
        vec._data.mem 16)) =
      some ((5 : Int), (4 : Int), (4 : Int), (16 : Int), (9 : Nat)) :=
  ⟨by decide, by decide, by decide, by decide⟩
